import Mathlib

/-!
# A verification development for `hw` (package `hw`, file `hw.go`)

`hw` is a small HTTP request helper written with the functional-options
pattern: `Do` builds a `RequestOpts` accumulator, applies the caller's option
functions in order, and hands the accumulator to `do`, which builds one
request and passes it to an HTTP client.

The development is a shallow embedding.

* Go strings are byte sequences (`GoString`).
* A Go `map[string][]string` (`http.Header`, `url.Values`) is a finite map,
  represented by its entries listed in ascending key order; a nil map is
  `none`.  Writing to a nil map panics, so every operation that writes reports
  a panic explicitly.
* Pointers and interfaces that may be nil are `Option`s.
* The effects of a call (which option functions were invoked, whether a
  request was constructed, which request was handed to which client) are
  recorded in an explicit list of events.
* The pieces of the Go standard library the package calls are modelled after
  their documented behaviour: `textproto.CanonicalMIMEHeaderKey`,
  `http.Header.Set`, `url.Values.Set`, `url.Values.Encode`, `url.QueryEscape`,
  `url.QueryUnescape`, `url.ParseQuery`, `http.NewRequestWithContext`.
  `url.Parse`, the JSON encoder, the client's `Do` and `fmt.Errorf` are parameters
  (`Env`).
-/

namespace Hw

/-! ## Bytes and strings -/

/-- A Go `byte`. -/
abbrev Byte := Fin 256

/-- A Go `string`: an immutable sequence of bytes. -/
abbrev GoString := List Byte

/-- The byte of an ASCII character literal. -/
def ch (c : Char) : Byte := Fin.ofNat c.toNat

/-- The Go string of an ASCII string literal. -/
def str (s : String) : GoString := s.data.map ch

/-- Go's `'0' <= c && c <= '9'`. -/
def isDigit (c : Byte) : Bool := 48 ≤ c.val && c.val ≤ 57

/-- Go's `'a' <= c && c <= 'z'`. -/
def isLower (c : Byte) : Bool := 97 ≤ c.val && c.val ≤ 122

/-- Go's `'A' <= c && c <= 'Z'`. -/
def isUpper (c : Byte) : Bool := 65 ≤ c.val && c.val ≤ 90

/-! ## Go maps from strings to string slices -/

/-- The entries of a `map[string][]string`. -/
abbrev Entries := List (GoString × List GoString)

/-- The keys of a list of entries, in the order of the list. -/
def Entries.keys (l : Entries) : List GoString := l.map Prod.fst

/-- The value stored under `k`, if any. -/
def Entries.lookup : Entries → GoString → Option (List GoString)
  | [], _ => none
  | (k', v') :: rest, k => if k = k' then some v' else Entries.lookup rest k

/-- The entries after the assignment `m[k] = v`: the entry of `k` is replaced, or
a new entry is added at the place its key has in ascending order. -/
def Entries.put : Entries → GoString → List GoString → Entries
  | [], k, v => [(k, v)]
  | (k', v') :: rest, k, v =>
    if k < k' then (k, v) :: (k', v') :: rest
    else if k = k' then (k, v) :: rest
    else (k', v') :: Entries.put rest k v

/-- A non-nil Go `map[string][]string`: a finite map, given by its entries in
strictly ascending key order (so every key occurs once). -/
def StrMap := { l : Entries // l.keys.Sorted (· < ·) }

instance : DecidableEq StrMap := inferInstanceAs (DecidableEq (Subtype _))

/-- The map made by `make(map[string][]string)`. -/
def StrMap.empty : StrMap := ⟨[], List.sorted_nil⟩

/-- The entries of the map. -/
def StrMap.entries (m : StrMap) : Entries := m.1

/-- Go's `len(m)`. -/
def StrMap.len (m : StrMap) : Nat := m.entries.length

/-- The comma-ok lookup `v, ok := m[k]`. -/
def StrMap.lookup (m : StrMap) (k : GoString) : Option (List GoString) := m.entries.lookup k

/-- Go's `m[k]`: the stored slice, or the nil (empty) slice when `k` is absent. -/
def StrMap.get (m : StrMap) (k : GoString) : List GoString := (m.lookup k).getD []

/-- Go's `m[k] = v` on a non-nil map. -/
def StrMap.put (m : StrMap) (k : GoString) (v : List GoString) : StrMap :=
  ⟨m.1.put k v, by
    obtain ⟨l, hl⟩ := m
    have hmem : ∀ (l : Entries) (x : GoString), x ∈ (l.put k v).keys → x = k ∨ x ∈ l.keys := by
      intro l
      induction l with
      | nil => intro x hx; simpa [Entries.put, Entries.keys] using hx
      | cons e rest ih =>
        obtain ⟨k', v'⟩ := e
        intro x hx
        simp only [Entries.put] at hx
        split_ifs at hx with h1 h2
        · simpa [Entries.keys] using hx
        · subst h2; simp only [Entries.keys, List.map_cons, List.mem_cons] at hx ⊢; tauto
        · simp only [Entries.keys, List.map_cons, List.mem_cons] at hx ⊢
          rcases hx with hx | hx
          · exact Or.inr (Or.inl hx)
          · rcases ih x hx with h | h
            · exact Or.inl h
            · exact Or.inr (Or.inr h)
    show (Entries.put l k v).keys.Sorted (· < ·)
    induction l with
    | nil => simp [Entries.put, Entries.keys]
    | cons e rest ih =>
      obtain ⟨k', v'⟩ := e
      have hl' : (∀ b ∈ Entries.keys rest, k' < b) ∧ (Entries.keys rest).Sorted (· < ·) := by
        simpa [Entries.keys, List.Sorted] using hl
      simp only [Entries.put]
      split_ifs with h1 h2
      · refine List.sorted_cons.2 ⟨?_, hl⟩
        intro b hb
        simp only [Entries.keys, List.map_cons, List.mem_cons] at hb
        rcases hb with hb | hb
        · exact hb ▸ h1
        · exact lt_trans h1 (hl'.1 b hb)
      · subst h2
        exact List.sorted_cons.2 ⟨hl'.1, hl'.2⟩
      · refine List.sorted_cons.2 ⟨?_, ih hl'.2⟩
        intro b hb
        rcases hmem rest b hb with h | h
        · subst h
          exact lt_of_le_of_ne (not_lt.1 h1) (Ne.symm h2)
        · exact hl'.1 b h⟩

/-- A Go map value: `none` is the nil map. -/
abbrev GoMap := Option StrMap

/-- Go's `len(m)`; the nil map has length 0. -/
def GoMap.len : GoMap → Nat
  | none => 0
  | some m => m.len

/-- Go's `m[k]`; reading the nil map gives the nil slice. -/
def GoMap.get : GoMap → GoString → List GoString
  | none, _ => []
  | some m, k => m.get k

/-- Go's comma-ok lookup `v, ok := m[k]`; the nil map has no key. -/
def GoMap.lookup : GoMap → GoString → Option (List GoString)
  | none, _ => none
  | some m, k => m.lookup k

/-- Go's `m[k] = v`: `none` is the run-time panic "assignment to entry in nil map". -/
def GoMap.assign : GoMap → GoString → List GoString → Option GoMap
  | none, _, _ => none
  | some m, k, v => some (some (m.put k v))

/-- A Go `error` value, identified by its message. -/
structure GoError where
  msg : String
deriving DecidableEq, Repr

deriving instance DecidableEq for Except

/-! ## `net/textproto` and `net/http`: header keys -/

/-- Go's `textproto.validHeaderFieldByte`: the bytes of an RFC 7230 token, that is
letters, digits and the marks ``!#$%&'*+-.^_`|~`` (39 is the apostrophe, 96 the
backquote). -/
def validHeaderFieldByte (c : Byte) : Bool :=
  isDigit c || isLower c || isUpper c ||
    decide (c ∈ [ch '!', ch '#', ch '$', ch '%', ch '&', 39, ch '*', ch '+', ch '-', ch '.',
      ch '^', ch '_', 96, ch '|', ch '~'])

/-- The rewriting loop of `textproto.canonicalMIMEHeaderKey`: upper case for the first
letter and for a letter that follows a dash, lower case elsewhere (`toLower` is 32). -/
def canonicalLoop : Bool → GoString → GoString
  | _, [] => []
  | upper, c :: rest =>
    let c' : Byte :=
      if upper && isLower c then Fin.ofNat (c.val - 32)
      else if !upper && isUpper c then Fin.ofNat (c.val + 32)
      else c
    c' :: canonicalLoop (c' == ch '-') rest

/-- Go's `textproto.canonicalMIMEHeaderKey` (its string result). A key holding a byte
that is not a token byte is returned unchanged: at once for a byte other than the
space, and through `noCanon` for a space. The final lookup in `commonHeader` only
shares storage and returns an equal string. -/
def canonicalMIMEHeaderKey (a : GoString) : GoString :=
  if a.any (fun c => !validHeaderFieldByte c && c != ch ' ') then a
  else if a.any (fun c => !validHeaderFieldByte c) then a
  else canonicalLoop true a

/-- The scanning loop of `textproto.CanonicalMIMEHeaderKey` over the rest of the key
`s`: the key is returned as it is when it holds an invalid byte or is already
canonical, and is handed to `canonicalMIMEHeaderKey` at the first letter of the wrong
case. -/
def canonicalScan (s : GoString) : Bool → GoString → GoString
  | _, [] => s
  | upper, c :: rest =>
    if !validHeaderFieldByte c then s
    else if upper && isLower c then canonicalMIMEHeaderKey s
    else if !upper && isUpper c then canonicalMIMEHeaderKey s
    else canonicalScan s (c == ch '-') rest

/-- Go's `textproto.CanonicalMIMEHeaderKey`. -/
def CanonicalMIMEHeaderKey (s : GoString) : GoString := canonicalScan s true s

/-- Go's `http.Header`: a `map[string][]string`, possibly nil. -/
abbrev Header := GoMap

/-- Go's `http.Header.Set`: `h[CanonicalMIMEHeaderKey(key)] = []string{value}`;
`none` is the panic of an assignment to a nil map. -/
def Header.Set (h : Header) (key value : GoString) : Option Header :=
  GoMap.assign h (CanonicalMIMEHeaderKey key) [value]

/-- Go's `http.Header.Values`: all values stored for the canonical form of `key`. -/
def Header.Values (h : Header) (key : GoString) : List GoString :=
  GoMap.get h (CanonicalMIMEHeaderKey key)

/-! ## `net/url`: query strings -/

/-- Go's `url.Values`: a `map[string][]string`, possibly nil. -/
abbrev Values := GoMap

/-- Go's `url.Values.Set`: `v[key] = []string{value}`; `none` is the panic of an
assignment to a nil map. -/
def Values.Set (v : Values) (key value : GoString) : Option Values :=
  GoMap.assign v key [value]

/-- Go's `url.shouldEscape(c, encodeQueryComponent)`: everything is escaped except
letters, digits and the marks `-_.~`. -/
def shouldEscape (c : Byte) : Bool :=
  !(isLower c || isUpper c || isDigit c || decide (c ∈ [ch '-', ch '_', ch '.', ch '~']))

/-- Go's `upperhex[n]`, for `n < 16`. -/
def upperhex (n : Nat) : Byte := (str "0123456789ABCDEF").getD n 0

/-- What `url.escape(s, encodeQueryComponent)` writes for one byte: `+` for a space,
`%XX` for a byte that must be escaped, the byte itself otherwise. -/
def escapeByte (c : Byte) : GoString :=
  if c = ch ' ' then [ch '+']
  else if shouldEscape c then [ch '%', upperhex (c.val / 16), upperhex (c.val % 16)]
  else [c]

/-- Go's `url.QueryEscape`. (The two shortcuts of `url.escape`, for a string with
nothing to escape and for one with only spaces to replace, give the same bytes.) -/
def QueryEscape (s : GoString) : GoString := s.flatMap escapeByte

/-- Go's `url.ishex`. -/
def ishex (c : Byte) : Bool :=
  isDigit c || (97 ≤ c.val && c.val ≤ 102) || (65 ≤ c.val && c.val ≤ 70)

/-- Go's `url.unhex`. -/
def unhex (c : Byte) : Byte :=
  if isDigit c then Fin.ofNat (c.val - 48)
  else if 97 ≤ c.val && c.val ≤ 102 then Fin.ofNat (c.val - 97 + 10)
  else if 65 ≤ c.val && c.val ≤ 70 then Fin.ofNat (c.val - 65 + 10)
  else 0

/-- The first pass of `url.unescape(s, encodeQueryComponent)`: every `%` is followed by
two hexadecimal digits. -/
def escapesWellFormed : GoString → Bool
  | [] => true
  | c :: rest =>
    if c = ch '%' then
      match rest with
      | a :: b :: rest' => ishex a && ishex b && escapesWellFormed rest'
      | _ => false
    else escapesWellFormed rest

/-- The second pass of `url.unescape(s, encodeQueryComponent)`, on a string that passed
the first: `%XX` becomes the byte `unhex(X)<<4 | unhex(X)`, `+` becomes a space. -/
def unescapeBytes : GoString → GoString
  | [] => []
  | c :: rest =>
    if c = ch '%' then
      match rest with
      | a :: b :: rest' =>
        Fin.ofNat ((((unhex a).val <<< 4) % 256) ||| (unhex b).val) :: unescapeBytes rest'
      | _ => []
    else if c = ch '+' then ch ' ' :: unescapeBytes rest
    else c :: unescapeBytes rest

/-- Go's `url.QueryUnescape`. -/
def QueryUnescape (s : GoString) : Except GoError GoString :=
  if escapesWellFormed s then .ok (unescapeBytes s) else .error ⟨"invalid URL escape"⟩

/-- Go's `strings.Cut(s, sep)` for a separator of one byte: the text before the first
`sep`, the text after it, and whether `sep` was found. -/
def cut (sep : Byte) : GoString → GoString × GoString × Bool
  | [] => ([], [], false)
  | c :: rest =>
    if c = sep then ([], rest, true)
    else ((c :: (cut sep rest).1), (cut sep rest).2.1, (cut sep rest).2.2)

/-- The successive values of `key` in the loop of `url.parseQuery`,
`for query != "" { key, query, _ = strings.Cut(query, "&"); ... }`. -/
def queryPieces : GoString → List GoString
  | [] => []
  | c :: rest =>
    if c = ch '&' then [] :: queryPieces rest
    else
      match queryPieces rest with
      | [] => [[c]]
      | p :: ps => (c :: p) :: ps

/-- One turn of the loop of `url.parseQuery` on the piece `key`; the state is the map
and the error to be returned. A piece with a semicolon, an empty piece and a piece
with a malformed escape are skipped. -/
def parseQueryStep (st : StrMap × Option GoError) (key : GoString) : StrMap × Option GoError :=
  if key.contains (ch ';') then (st.1, some ⟨"invalid semicolon separator in query"⟩)
  else if key = [] then st
  else
    match QueryUnescape (cut (ch '=') key).1 with
    | .error e1 => (st.1, if st.2 = none then some e1 else st.2)
    | .ok k =>
      match QueryUnescape (cut (ch '=') key).2.1 with
      | .error e1 => (st.1, if st.2 = none then some e1 else st.2)
      | .ok v => (st.1.put k (st.1.get k ++ [v]), st.2)

/-- Go's `url.defaultMaxParams`: the largest number of pairs `url.ParseQuery` accepts
(under the default setting of `urlmaxqueryparams`). -/
def defaultMaxParams : Nat := 10000

/-- Go's `url.ParseQuery`. A query with more than `defaultMaxParams` pieces, counted as
`strings.Count(query, "&") + 1`, gives the empty map and an error; otherwise the result
is the map of every well-formed pair, and the first error met. -/
def ParseQuery (query : GoString) : StrMap × Option GoError :=
  if query.count (ch '&') + 1 > defaultMaxParams then
    (StrMap.empty, some ⟨"number of URL query parameters exceeded limit"⟩)
  else (queryPieces query).foldl parseQueryStep (StrMap.empty, none)

/-- The `strings.Builder` of `url.Values.Encode` after the pair `(keyEscaped, v)`. -/
def encodePair (keyEscaped : GoString) (buf : GoString) (v : GoString) : GoString :=
  (if buf.length > 0 then buf ++ [ch '&'] else buf) ++ keyEscaped ++ [ch '='] ++ QueryEscape v

/-- Go's `url.Values.Encode`: the pairs `key=value`, escaped, joined by `&`, the keys in
ascending order and the values of one key in the order of its slice. -/
def Values.Encode (v : Values) : GoString :=
  match v with
  | none => []
  | some m =>
    if m.len = 0 then []
    else
      (m.entries.keys.insertionSort (· ≤ ·)).foldl
        (fun buf k => (m.get k).foldl (encodePair (QueryEscape k)) buf) []

/-- Go's `(*url.URL).Query`: `ParseQuery` of the raw query, the error dropped. -/
def parsedQuery (rawQuery : GoString) : StrMap := (ParseQuery rawQuery).1

/-! ## `net/http`: requests, responses, clients -/

/-- A non-nil `context.Context`, identified by a tag. -/
structure Context where
  id : Nat
deriving DecidableEq, Repr

/-- A non-nil `io.Reader` value. -/
inductive Reader where
  /-- A reader that can be read: a non-nil `*bytes.Buffer`, `*bytes.Reader` or
  `*strings.Reader`, or a reader of another type, identified by the bytes it yields. -/
  | stream (data : GoString)
  /-- A nil `*bytes.Buffer`, `*bytes.Reader` or `*strings.Reader` stored in the interface:
  the interface value is not nil, and calling `Len` on the pointer panics. -/
  | nilPointer
deriving DecidableEq, Repr

/-- A parsed `*url.URL`: the raw query, which `do` rewrites, and the other
components, which it leaves alone. -/
structure URL where
  Scheme : GoString
  Host : GoString
  Path : GoString
  RawQuery : GoString
  Fragment : GoString
deriving DecidableEq, Repr

/-- Go's `(*url.URL).Query`. -/
def URL.Query (u : URL) : StrMap := parsedQuery u.RawQuery

/-- A `*http.Request`, with the fields `do` reads or writes. -/
structure Request where
  ctx : Context
  Method : GoString
  URL : URL
  Header : Header
  Body : Option Reader
deriving DecidableEq

/-- A non-nil `*http.Response`. -/
structure Response where
  StatusCode : Nat
  Body : GoString
deriving DecidableEq, Repr

/-- A non-nil `*http.Client`, identified by a tag. -/
structure Client where
  id : Nat
deriving DecidableEq, Repr

/-- Go's `http.DefaultClient`, the client shared by the whole process. -/
def DefaultClient : Client := ⟨0⟩

/-- A Go value of any dynamic type, as passed for an `interface{}` parameter; it is
identified by a tag, and only the JSON encoder looks inside. -/
structure GoValue where
  id : Nat
deriving DecidableEq, Repr

/-- The parts of the standard library and of the outside world that the package calls
and that are left open:
`parseURL` is `url.Parse` as `http.NewRequestWithContext` uses it,
`jsonEncode v` is what `json.NewEncoder(buf).Encode(v)` writes into `buf`, or its error,
`clientDo c req` is the pair returned by `c.Do(req)`,
`errorf format arg` is the error made by `fmt.Errorf(format, arg)` for a string `arg`. -/
structure Env where
  parseURL : GoString → Except GoError URL
  jsonEncode : GoValue → Except GoError GoString
  clientDo : Client → Request → Option Response × Option GoError
  errorf : String → GoString → GoError

/-- Go's `http.validMethod`: a non-empty string of token bytes. -/
def validMethod (method : GoString) : Bool :=
  decide (method.length > 0) && method.all validHeaderFieldByte

/-- How a call of `http.NewRequestWithContext` ends: it returns the request, or it
returns an error, or it panics. -/
inductive NewRequestResult where
  | ok (req : Request)
  | error (err : GoError)
  | panicked
deriving DecidableEq

/-- Go's `http.NewRequestWithContext`: the empty method means GET, the method must be
valid, the context must not be nil and the URL must parse. After these checks the
constructor asks a body of type `*bytes.Buffer`, `*bytes.Reader` or `*strings.Reader`
for its length, which panics when that pointer is nil. The new request has an empty,
non-nil header map. -/
def NewRequestWithContext (env : Env) (ctx : Option Context) (method url : GoString)
    (body : Option Reader) : NewRequestResult :=
  let method := if method = [] then str "GET" else method
  if !validMethod method then .error (env.errorf "net/http: invalid method %q" method)
  else
    match ctx with
    | none => .error ⟨"net/http: nil Context"⟩
    | some ctx =>
      match env.parseURL url with
      | .error err => .error err
      | .ok u =>
        match body with
        | some .nilPointer => .panicked
        | _ =>
          .ok { ctx := ctx, Method := method, URL := u, Header := some StrMap.empty,
                Body := body }

/-! ## The package `hw` -/

/-- The struct `RequestOpts` of `hw.go`. -/
structure RequestOpts where
  method : GoString
  url : GoString
  body : Option Reader
  headers : Header
  params : Values
  httpClient : Option Client
deriving DecidableEq

/-- How a call of an option function ends: it returns, leaving the accumulator `r` and
the error `err` (`none` is the nil error), or it panics. -/
inductive OptResult where
  | returned (r : RequestOpts) (err : Option GoError)
  | panicked
deriving DecidableEq

/-- The type `OptionsFn` of `hw.go`, `func(r *RequestOpts) error`: the accumulator is
passed in and the accumulator after the call is passed out. -/
abbrev OptionsFn := RequestOpts → OptResult

/-- `WithBody` of `hw.go`. -/
def WithBody (body : Option Reader) : OptionsFn :=
  fun r => .returned { r with body := body } none

/-- `WithJsonBody` of `hw.go`. The buffer is assigned to `r.body` before
`r.headers.Set` is called. -/
def WithJsonBody (env : Env) (body : GoValue) : OptionsFn :=
  fun r =>
    match env.jsonEncode body with
    | .error err => .returned r (some err)
    | .ok buf =>
      match Header.Set r.headers (str "Content-Type") (str "application/json") with
      | none => .panicked
      | some h => .returned { r with body := some (.stream buf), headers := h } none

/-- `WithParam` of `hw.go`. -/
def WithParam (key value : GoString) : OptionsFn :=
  fun r =>
    match Values.Set r.params key value with
    | none => .panicked
    | some p => .returned { r with params := p } none

/-- `WithHeader` of `hw.go`. -/
def WithHeader (key value : GoString) : OptionsFn :=
  fun r =>
    match Header.Set r.headers key value with
    | none => .panicked
    | some h => .returned { r with headers := h } none

/-- `WithHttpClient` of `hw.go`. -/
def WithHttpClient (httpClient : Option Client) : OptionsFn :=
  fun r =>
    match httpClient with
    | none => .returned r (some ⟨"nil httpClient"⟩)
    | some c => .returned { r with httpClient := some c } none

/-- What a call does to the outside, in order. -/
inductive Event where
  /-- The option function at position `i` of the list was called. -/
  | option (i : Nat)
  /-- The constructor `http.NewRequestWithContext` was called. -/
  | newRequest (method url : GoString) (body : Option Reader)
  /-- The send operation `c.Do(req)` was called. -/
  | send (c : Client) (req : Request)
deriving DecidableEq

/-- How a call of `Do` or `do` ends: it returns the pair `(resp, err)` (`none` is nil),
or it panics. -/
inductive Result where
  | returned (resp : Option Response) (err : Option GoError)
  | panicked
deriving DecidableEq

/-- The result of a call together with the events it caused. -/
structure Outcome where
  result : Result
  trace : List Event
deriving DecidableEq

/-- How the loop over the options of `Do` ends: every option returned nil and the
accumulator is `c`; or one returned the error `err`, leaving the accumulator `c`; or
one panicked. -/
inductive LoopResult where
  | completed (c : RequestOpts)
  | failed (c : RequestOpts) (err : GoError)
  | panicked
deriving DecidableEq

/-- The loop `for _, o := range options { if err := o(c); err != nil { return nil, err } }`
of `Do`, from position `i` of the list on, with the events it causes. -/
def applyOptions : List OptionsFn → Nat → RequestOpts → LoopResult × List Event
  | [], _, c => (.completed c, [])
  | o :: rest, i, c =>
    match o c with
    | .panicked => (.panicked, [.option i])
    | .returned c' (some err) => (.failed c' err, [.option i])
    | .returned c' none =>
      ((applyOptions rest (i + 1) c').1, .option i :: (applyOptions rest (i + 1) c').2)

/-- The loop `for k, v := range opts.params { q[k] = v }` of `do`. -/
def mergeParams (q : StrMap) (params : Values) : StrMap :=
  match params with
  | none => q
  | some p => p.entries.foldl (fun q e => q.put e.1 e.2) q

/-- The part of `do` that rewrites the request made by the constructor: the header
map is replaced by `opts.headers`, and, when `opts.params` is not empty, the raw query
is replaced by the encoded parameters (if it was empty) or by the encoding of its own
pairs overwritten with the parameters. -/
def prepare (opts : RequestOpts) (req : Request) : Request :=
  let req := { req with Header := opts.headers }
  if GoMap.len opts.params > 0 then
    if req.URL.RawQuery = [] then
      { req with URL := { req.URL with RawQuery := Values.Encode opts.params } }
    else
      { req with URL := { req.URL with
          RawQuery := Values.Encode (some (mergeParams req.URL.Query opts.params)) } }
  else req

/-- The function `do` of `hw.go`. Calling `Do` on a nil `*http.Client` panics. -/
def do_ (env : Env) (ctx : Option Context) (opts : RequestOpts) : Outcome :=
  match NewRequestWithContext env ctx opts.method opts.url opts.body with
  | .panicked => ⟨.panicked, [.newRequest opts.method opts.url opts.body]⟩
  | .error err => ⟨.returned none (some err), [.newRequest opts.method opts.url opts.body]⟩
  | .ok req =>
    match opts.httpClient with
    | none => ⟨.panicked, [.newRequest opts.method opts.url opts.body]⟩
    | some c =>
      ⟨.returned (env.clientDo c (prepare opts req)).1 (env.clientDo c (prepare opts req)).2,
        [.newRequest opts.method opts.url opts.body, .send c (prepare opts req)]⟩

/-- The accumulator `Do` starts from. -/
def initialOpts (method url : GoString) : RequestOpts :=
  { method := method, url := url, body := none, headers := some StrMap.empty,
    params := some StrMap.empty, httpClient := some DefaultClient }

/-- The function `Do` of `hw.go`. -/
def Do (env : Env) (ctx : Option Context) (method url : GoString) (options : List OptionsFn) :
    Outcome :=
  match applyOptions options 0 (initialOpts method url) with
  | (.panicked, t) => ⟨.panicked, t⟩
  | (.failed _ err, t) => ⟨.returned none (some err), t⟩
  | (.completed c, t) => ⟨(do_ env ctx c).result, t ++ (do_ env ctx c).trace⟩

/-- The five options of the package, as data: the constructor and its arguments. -/
inductive Opt where
  | body (b : Option Reader)
  | jsonBody (v : GoValue)
  | param (key value : GoString)
  | header (key value : GoString)
  | httpClient (c : Option Client)
deriving DecidableEq

/-- The option function that `hw.go` builds for an option. -/
def Opt.fn (env : Env) : Opt → OptionsFn
  | .body b => WithBody b
  | .jsonBody v => WithJsonBody env v
  | .param k v => WithParam k v
  | .header k v => WithHeader k v
  | .httpClient c => WithHttpClient c

/-- Whether an option writes the header entry that `http.Header` keeps for `key`. -/
def Opt.touchesHeader (key : GoString) : Opt → Bool
  | .header k _ => CanonicalMIMEHeaderKey k == CanonicalMIMEHeaderKey key
  | .jsonBody _ => CanonicalMIMEHeaderKey (str "Content-Type") == CanonicalMIMEHeaderKey key
  | _ => false

/-- Whether an option is a `WithParam`. -/
def Opt.isParam : Opt → Bool
  | .param _ _ => true
  | _ => false

/-- A small environment for the concrete examples: a URL is split at its first `?`
into a path and a raw query and is refused when it is empty, the value with tag 0 is
the only one the JSON encoder accepts, every client answers with status 200, and the
text of a formatted error is the format followed by the argument. -/
def sampleEnv : Env where
  parseURL := fun u =>
    if u = [] then .error ⟨"parse: empty url"⟩
    else .ok ⟨[], [], (cut (ch '?') u).1, (cut (ch '?') u).2.1, []⟩
  jsonEncode := fun v =>
    if v.id = 0 then .ok (str "\x7b\"k\":\"v\"\x7d\n") else .error ⟨"json: unsupported type"⟩
  clientDo := fun _ _ => (some ⟨200, []⟩, none)
  errorf := fun format arg =>
    ⟨format ++ " with " ++ String.mk (arg.map fun c => Char.ofNat c.val)⟩

/-- The zero value `RequestOpts{}`: nil maps, nil body, nil client. -/
def zeroOpts : RequestOpts :=
  { method := [], url := [], body := none, headers := none, params := none, httpClient := none }

/-! ## Definitions used in the statements -/

/-- Whether an event is a call of a client's send operation. -/
def Event.isSend : Event → Bool
  | .send _ _ => true
  | _ => false

/-- The accumulator the loop over the options ends with, when it does not panic. -/
def LoopResult.acc : LoopResult → Option RequestOpts
  | .completed c => some c
  | .failed c _ => some c
  | .panicked => none

/-- An environment whose clients all fail to reach the server: the send operation returns
no response and a transport error. The rest is as in `sampleEnv`. -/
def downEnv : Env :=
  { sampleEnv with clientDo := fun _ _ => (none, some ⟨"dial tcp: connection refused"⟩) }

/-- An environment whose clients return both a response and an error, as
`http.Client.Do` does when `CheckRedirect` fails. The rest is as in `sampleEnv`. -/
def redirectEnv : Env :=
  { sampleEnv with
    clientDo := fun _ _ => (some ⟨302, []⟩, some ⟨"redirect refused by CheckRedirect"⟩) }

/-- An environment whose clients answer a request for the path `/loop` with both a
response and an error (the redirect limit of `http.Client.Do`), and any other request
with a response and no error. The rest is as in `sampleEnv`. -/
def loopEnv : Env :=
  { sampleEnv with
    clientDo := fun _ req =>
      if req.URL.Path = str "/loop" then (some ⟨302, []⟩, some ⟨"stopped after 10 redirects"⟩)
      else (some ⟨200, []⟩, none) }

/-- Applying the option `o1` and then, when it returned nil, the option `o2`. -/
def andThen (o1 o2 : OptionsFn) : OptionsFn :=
  fun r =>
    match o1 r with
    | .returned r1 none => o2 r1
    | other => other

/-- The kind of an option: which of the five constructors made it. -/
def Opt.kind : Opt → Nat
  | .body _ => 0
  | .jsonBody _ => 1
  | .param _ _ => 2
  | .header _ _ => 3
  | .httpClient _ => 4

/-- Whether two options of different kinds write the same place: `WithBody` and
`WithJsonBody` both write `body`; `WithJsonBody` and a `WithHeader` whose key has the
canonical form `Content-Type` both write that header entry. -/
def Opt.conflict : Opt → Opt → Bool
  | .body _, .jsonBody _ => true
  | .jsonBody _, .body _ => true
  | .header k _, .jsonBody _ => CanonicalMIMEHeaderKey k == str "Content-Type"
  | .jsonBody _, .header k _ => CanonicalMIMEHeaderKey k == str "Content-Type"
  | _, _ => false

/-- Whether two options are of the same kind and, for `WithParam` and `WithHeader`, have
the same key. -/
def Opt.sameSlot : Opt → Opt → Bool
  | .body _, .body _ => true
  | .jsonBody _, .jsonBody _ => true
  | .param k1 _, .param k2 _ => k1 == k2
  | .header k1 _, .header k2 _ => k1 == k2
  | .httpClient _, .httpClient _ => true
  | _, _ => false

/-- A map is present (not nil) and every key in it has exactly one value. -/
def GoMap.singleValued (m : GoMap) : Prop :=
  ∃ s, m = some s ∧ ∀ k vs, s.lookup k = some vs → ∃ v, vs = [v]

/-- The keys that a raw query lists, in the order of its pairs: for every piece between
`&`, the unescaped text before the first `=`. -/
def queryKeys (rawQuery : GoString) : List GoString :=
  (queryPieces rawQuery).filterMap fun p =>
    match QueryUnescape (cut (ch '=') p).1 with
    | .ok k => some k
    | .error _ => none

/-- The pairs that a raw query lists, in order: for every non-empty piece between `&`
whose key (the text before the first `=`) and value (the text after it) unescape, the
unescaped key and value. Unlike `url.ParseQuery` it skips no piece for a semicolon and
has no limit on the number of pieces. -/
def queryPairs (rawQuery : GoString) : List (GoString × GoString) :=
  (queryPieces rawQuery).filterMap fun p =>
    if p = [] then none
    else
      match QueryUnescape (cut (ch '=') p).1, QueryUnescape (cut (ch '=') p).2.1 with
      | .ok k, .ok v => some (k, v)
      | _, _ => none

/-- The values that a raw query lists for the key `k`, in order. -/
def queryValues (rawQuery : GoString) (k : GoString) : List GoString :=
  (queryPairs rawQuery).filterMap fun p => if p.1 = k then some p.2 else none

/-- The loop `for k, v := range params { q[k] = v }` of `do`, run over the entries in the
order `l`. -/
def mergeEntries (q : StrMap) (l : Entries) : StrMap :=
  l.foldl (fun q e => q.put e.1 e.2) q

/-- The body of `url.Values.Encode` on a non-empty map, when `for k := range v` has
collected the keys in the order `ks`. -/
def encodeKeys (m : StrMap) (ks : List GoString) : GoString :=
  (ks.insertionSort (· ≤ ·)).foldl
    (fun buf k => (m.get k).foldl (encodePair (QueryEscape k)) buf) []

/-- The lower-case form of a byte: an ASCII capital letter becomes the small letter, any
other byte is left as it is. -/
def asciiLower (c : Byte) : Byte :=
  if isUpper c then Fin.ofNat (c.val + 32) else c

/-! ## Auxiliary definitions for the proofs -/

/-- The pairs `(key, value)` of a list of entries, in order. -/
def Entries.pairs (l : Entries) : List (GoString × GoString) :=
  l.flatMap fun e => e.2.map fun v => (e.1, v)

/-- The text `key=value` of a pair, escaped. -/
def pairText (p : GoString × GoString) : GoString :=
  QueryEscape p.1 ++ ch '=' :: QueryEscape p.2

/-- Texts joined by `&`. -/
def joinAmp : List GoString → GoString
  | [] => []
  | [p] => p
  | p :: q :: ps => p ++ ch '&' :: joinAmp (q :: ps)

/-- One turn of the parsing loop on a well-formed pair: `m[key] = append(m[key], value)`. -/
def addPair (q : StrMap) (p : GoString × GoString) : StrMap := q.put p.1 (q.get p.1 ++ [p.2])

/-- The byte that one turn of the rewriting loop of `canonicalMIMEHeaderKey` writes. -/
def canonicalByte (upper : Bool) (c : Byte) : Byte :=
  if upper && isLower c then Fin.ofNat (c.val - 32)
  else if !upper && isUpper c then Fin.ofNat (c.val + 32)
  else c

/-! ## Lemmas on maps -/

theorem Entries.lookup_put_eq (l : Entries) (k : GoString) (v : List GoString) :
    (l.put k v).lookup k = some v := by
  induction l with
  | nil => simp [Entries.put, Entries.lookup]
  | cons e rest ih =>
    obtain ⟨k', v'⟩ := e
    simp only [Entries.put]
    split_ifs with h1 h2
    · simp [Entries.lookup]
    · simp [Entries.lookup]
    · simp [Entries.lookup, h2, ih]

theorem Entries.lookup_put_of_ne (l : Entries) (k k' : GoString) (v : List GoString) (h : k' ≠ k) :
    (l.put k v).lookup k' = l.lookup k' := by
  induction l with
  | nil => simp [Entries.put, Entries.lookup, h]
  | cons e rest ih =>
    obtain ⟨k1, v1⟩ := e
    simp only [Entries.put]
    split_ifs with h1 h2
    · simp [Entries.lookup, h]
    · subst h2; simp [Entries.lookup, h]
    · simp [Entries.lookup, ih]

theorem StrMap.lookup_put_same (m : StrMap) (k : GoString) (v : List GoString) :
    (m.put k v).lookup k = some v := Entries.lookup_put_eq m.1 k v

theorem StrMap.lookup_put_ne (m : StrMap) (k k' : GoString) (v : List GoString) (h : k' ≠ k) :
    (m.put k v).lookup k' = m.lookup k' := Entries.lookup_put_of_ne m.1 k k' v h

theorem StrMap.get_put_same (m : StrMap) (k : GoString) (v : List GoString) :
    (m.put k v).get k = v := by
  simp [StrMap.get, StrMap.lookup_put_same]

theorem StrMap.get_put_ne (m : StrMap) (k k' : GoString) (v : List GoString) (h : k' ≠ k) :
    (m.put k v).get k' = m.get k' := by
  simp [StrMap.get, StrMap.lookup_put_ne _ _ _ _ h]

/-! ## Lemmas on the loop over the options -/

theorem applyOptions_append (pre rest : List OptionsFn) (i : Nat) (c c' : RequestOpts)
    (h : (applyOptions pre i c).1 = .completed c') :
    applyOptions (pre ++ rest) i c =
      ((applyOptions rest (i + pre.length) c').1,
        (List.range' i pre.length).map Event.option ++ (applyOptions rest (i + pre.length) c').2) := by
  induction pre generalizing i c with
  | nil =>
    simp only [applyOptions, LoopResult.completed.injEq] at h
    subst h
    simp
  | cons o os ih =>
    simp only [applyOptions] at h ⊢
    rcases ho : o c with ⟨r, _ | e⟩ | _
    · rw [ho] at h
      simp only at h
      have ih' := ih (i + 1) r h
      show ((applyOptions (os ++ rest) (i + 1) r).1,
        Event.option i :: (applyOptions (os ++ rest) (i + 1) r).2) = _
      rw [ih']
      simp [List.range', Nat.add_assoc, Nat.add_comm 1]
    · rw [ho] at h; simp at h
    · rw [ho] at h; simp at h

theorem applyOptions_invariant (P : RequestOpts → Prop) (os : List OptionsFn)
    (hstep : ∀ o ∈ os, ∀ r r', P r → o r = .returned r' none → P r')
    (i : Nat) (c c' : RequestOpts) (hc : P c)
    (h : (applyOptions os i c).1 = .completed c') : P c' := by
  induction os generalizing i c with
  | nil =>
    simp only [applyOptions, LoopResult.completed.injEq] at h
    exact h ▸ hc
  | cons o os ih =>
    simp only [applyOptions] at h
    rcases ho : o c with ⟨r, _ | e⟩ | _
    · rw [ho] at h
      exact ih (fun o' ho' => hstep o' (List.mem_cons_of_mem _ ho')) (i + 1) r
        (hstep o (List.mem_cons_self _ _) c r hc ho) h
    · rw [ho] at h; simp at h
    · rw [ho] at h; simp at h

theorem Do_first_error (env : Env) (ctx : Option Context) (method url : GoString)
    (pre post : List OptionsFn) (o : OptionsFn) (c c' : RequestOpts) (e : GoError)
    (hpre : (applyOptions pre 0 (initialOpts method url)).1 = .completed c)
    (ho : o c = .returned c' (some e)) :
    Do env ctx method url (pre ++ o :: post) =
      ⟨.returned none (some e), (List.range (pre.length + 1)).map Event.option⟩ := by
  unfold Do
  rw [applyOptions_append pre (o :: post) 0 (initialOpts method url) c hpre]
  simp only [applyOptions, ho, Nat.zero_add]
  simp [List.range_eq_range', List.range'_concat]

/-! ## Lemmas on escaping -/

set_option maxRecDepth 100000 in
theorem hex_roundtrip (c : Byte) :
    ishex (upperhex (c.val / 16)) = true ∧ ishex (upperhex (c.val % 16)) = true ∧
      Fin.ofNat ((((unhex (upperhex (c.val / 16))).val <<< 4) % 256) |||
        (unhex (upperhex (c.val % 16))).val) = c := by
  revert c; decide!

set_option maxRecDepth 100000 in
theorem upperhex_clean (c : Byte) :
    (upperhex (c.val / 16) ≠ ch '&' ∧ upperhex (c.val / 16) ≠ ch ';' ∧
      upperhex (c.val / 16) ≠ ch '=') ∧
    (upperhex (c.val % 16) ≠ ch '&' ∧ upperhex (c.val % 16) ≠ ch ';' ∧
      upperhex (c.val % 16) ≠ ch '=') := by
  revert c; decide!

set_option maxRecDepth 100000 in
theorem unescaped_byte (c : Byte) (h : shouldEscape c = false) :
    c ≠ ch '%' ∧ c ≠ ch '+' ∧ c ≠ ch '&' ∧ c ≠ ch ';' ∧ c ≠ ch '=' := by
  revert c; decide!

theorem escapeByte_clean (c : Byte) :
    ∀ x ∈ escapeByte c, x ≠ ch '&' ∧ x ≠ ch ';' ∧ x ≠ ch '=' := by
  intro x hx
  unfold escapeByte at hx
  split_ifs at hx with h1 h2
  · have hx' : x = ch '+' := by simpa using hx
    subst hx'; decide
  · have hx' : x = ch '%' ∨ x = upperhex (c.val / 16) ∨ x = upperhex (c.val % 16) := by
      simpa using hx
    rcases hx' with h | h | h
    · subst h; decide
    · rw [h]; exact (upperhex_clean c).1
    · rw [h]; exact (upperhex_clean c).2
  · have hx' : x = c := by simpa using hx
    have h2' : shouldEscape c = false := by simpa using h2
    obtain ⟨_, _, h3⟩ := unescaped_byte c h2'
    rw [hx']; exact h3

theorem escapesWellFormed_cons_of_ne (c : Byte) (rest : GoString) (h : c ≠ ch '%') :
    escapesWellFormed (c :: rest) = escapesWellFormed rest := by
  rcases rest with _ | ⟨a, _ | ⟨b, rest'⟩⟩ <;> simp [escapesWellFormed, h]

theorem escapesWellFormed_percent (a b : Byte) (rest : GoString) :
    escapesWellFormed (ch '%' :: a :: b :: rest) =
      (ishex a && ishex b && escapesWellFormed rest) := by
  simp [escapesWellFormed]

theorem unescapeBytes_cons_of_ne (c : Byte) (rest : GoString) (h : c ≠ ch '%')
    (h' : c ≠ ch '+') : unescapeBytes (c :: rest) = c :: unescapeBytes rest := by
  rcases rest with _ | ⟨a, _ | ⟨b, rest'⟩⟩ <;> simp [unescapeBytes, h, h']

theorem unescapeBytes_plus (rest : GoString) :
    unescapeBytes (ch '+' :: rest) = ch ' ' :: unescapeBytes rest := by
  have h : ch '+' ≠ ch '%' := by decide
  rcases rest with _ | ⟨a, _ | ⟨b, rest'⟩⟩ <;> simp [unescapeBytes, h]

theorem unescapeBytes_percent (a b : Byte) (rest : GoString) :
    unescapeBytes (ch '%' :: a :: b :: rest) =
      Fin.ofNat ((((unhex a).val <<< 4) % 256) ||| (unhex b).val) :: unescapeBytes rest := by
  simp [unescapeBytes]

theorem QueryEscape_clean (s : GoString) :
    ∀ x ∈ QueryEscape s, x ≠ ch '&' ∧ x ≠ ch ';' ∧ x ≠ ch '=' := by
  intro x hx
  simp only [QueryEscape, List.mem_flatMap] at hx
  obtain ⟨c, _, hc⟩ := hx
  exact escapeByte_clean c x hc

theorem QueryEscape_cons (c : Byte) (s : GoString) :
    QueryEscape (c :: s) = escapeByte c ++ QueryEscape s := by
  simp [QueryEscape]

theorem QueryUnescape_QueryEscape (s : GoString) :
    QueryUnescape (QueryEscape s) = .ok s := by
  have key : escapesWellFormed (QueryEscape s) = true ∧ unescapeBytes (QueryEscape s) = s := by
    induction s with
    | nil => exact ⟨rfl, rfl⟩
    | cons c s ih =>
      rw [QueryEscape_cons]
      unfold escapeByte
      split_ifs with h1 h2
      · subst h1
        have : ch '+' ≠ ch '%' := by decide
        exact ⟨by simpa [escapesWellFormed_cons_of_ne _ _ this] using ih.1,
          by simp [unescapeBytes_plus, ih.2]⟩
      · obtain ⟨ha, hb, hc⟩ := hex_roundtrip c
        exact ⟨by simp [escapesWellFormed_percent, ha, hb, ih.1],
          by simp [unescapeBytes_percent, hc, ih.2]⟩
      · have h2' : shouldEscape c = false := by simpa using h2
        obtain ⟨ha, hb, _⟩ := unescaped_byte c h2'
        exact ⟨by simpa [escapesWellFormed_cons_of_ne _ _ ha] using ih.1,
          by simp [unescapeBytes_cons_of_ne _ _ ha hb, ih.2]⟩
  simp [QueryUnescape, key.1, key.2]

theorem cut_append (sep : Byte) (a b : GoString) (h : sep ∉ a) :
    cut sep (a ++ sep :: b) = (a, b, true) := by
  induction a with
  | nil => simp [cut]
  | cons c a ih =>
    have hc : c ≠ sep := fun e => h (e ▸ List.mem_cons_self _ _)
    have ha : sep ∉ a := fun e => h (List.mem_cons_of_mem _ e)
    simp [cut, hc, ih ha]

/-! ## Lemmas on parsing an encoded query -/

/-- The pieces are those the loop of `url.parseQuery` visits: while the query is not
empty, the text before the first `&` is cut off and the loop goes on with the rest. -/
theorem queryPieces_eq_cut (s : GoString) :
    queryPieces s =
      if s = [] then [] else (cut (ch '&') s).1 :: queryPieces (cut (ch '&') s).2.1 := by
  induction s with
  | nil => rfl
  | cons c rest ih =>
    by_cases hc : c = ch '&'
    · simp [queryPieces, cut, hc]
    · by_cases hr : rest = []
      · subst hr
        simp [queryPieces, cut, hc]
      · rw [if_neg hr] at ih
        simp only [queryPieces, cut, hc, if_false, ih]
        simp

theorem queryPieces_of_clean (a : GoString) (h : ch '&' ∉ a) (hne : a ≠ []) :
    queryPieces a = [a] := by
  induction a with
  | nil => exact absurd rfl hne
  | cons c a ih =>
    have hc : c ≠ ch '&' := fun e => h (e ▸ List.mem_cons_self _ _)
    have ha : ch '&' ∉ a := fun e => h (List.mem_cons_of_mem _ e)
    rcases a with _ | ⟨d, a⟩
    · simp [queryPieces, hc]
    · have := ih ha (by simp)
      simp only [queryPieces, hc, if_false] at this ⊢
      simp [this]

theorem queryPieces_append (a b : GoString) (h : ch '&' ∉ a) :
    queryPieces (a ++ ch '&' :: b) = a :: queryPieces b := by
  induction a with
  | nil => simp [queryPieces]
  | cons c a ih =>
    have hc : c ≠ ch '&' := fun e => h (e ▸ List.mem_cons_self _ _)
    have ha : ch '&' ∉ a := fun e => h (List.mem_cons_of_mem _ e)
    simp [queryPieces, hc, ih ha]

theorem queryPieces_joinAmp (ps : List GoString)
    (h : ∀ p ∈ ps, ch '&' ∉ p ∧ p ≠ []) : queryPieces (joinAmp ps) = ps := by
  induction ps with
  | nil => rfl
  | cons p ps ih =>
    rcases ps with _ | ⟨q, ps⟩
    · exact queryPieces_of_clean p (h p (List.mem_cons_self _ _)).1 (h p (List.mem_cons_self _ _)).2
    · simp only [joinAmp]
      rw [queryPieces_append _ _ (h p (List.mem_cons_self _ _)).1,
        ih (fun x hx => h x (List.mem_cons_of_mem _ hx))]

theorem pairText_clean (p : GoString × GoString) : ch '&' ∉ pairText p ∧ pairText p ≠ [] := by
  constructor
  · intro hmem
    simp only [pairText, List.mem_append, List.mem_cons] at hmem
    rcases hmem with h | h | h
    · exact (QueryEscape_clean _ _ h).1 rfl
    · exact absurd h (by decide)
    · exact (QueryEscape_clean _ _ h).1 rfl
  · simp [pairText]

theorem parseQueryStep_pairText (st : StrMap × Option GoError) (p : GoString × GoString) :
    parseQueryStep st (pairText p) = (st.1.put p.1 (st.1.get p.1 ++ [p.2]), st.2) := by
  have hsemi : (pairText p).contains (ch ';') = false := by
    rw [Bool.eq_false_iff]
    intro hc
    have hmem : ch ';' ∈ pairText p := by simpa using hc
    simp only [pairText, List.mem_append, List.mem_cons] at hmem
    rcases hmem with h | h | h
    · exact (QueryEscape_clean _ _ h).2.1 rfl
    · exact absurd h (by decide)
    · exact (QueryEscape_clean _ _ h).2.1 rfl
  have hcut : cut (ch '=') (pairText p) = (QueryEscape p.1, QueryEscape p.2, true) :=
    cut_append _ _ _ (fun h => (QueryEscape_clean _ _ h).2.2 rfl)
  unfold parseQueryStep
  rw [hsemi, hcut]
  simp [(pairText_clean p).2, QueryUnescape_QueryEscape]

theorem foldl_parseQueryStep_pairText (ps : List (GoString × GoString))
    (st : StrMap × Option GoError) :
    (ps.map pairText).foldl parseQueryStep st = (ps.foldl addPair st.1, st.2) := by
  induction ps generalizing st with
  | nil => rfl
  | cons p ps ih =>
    simp only [List.map_cons, List.foldl_cons, parseQueryStep_pairText]
    rw [ih]
    rfl

theorem count_amp_joinAmp (ps : List GoString) (h : ∀ p ∈ ps, ch '&' ∉ p) :
    (joinAmp ps).count (ch '&') = ps.length - 1 := by
  induction ps with
  | nil => rfl
  | cons p ps ih =>
    have hp : p.count (ch '&') = 0 := List.count_eq_zero.2 (h p (List.mem_cons_self _ _))
    rcases ps with _ | ⟨q, ps⟩
    · simpa [joinAmp] using hp
    · have ih' := ih (fun x hx => h x (List.mem_cons_of_mem _ hx))
      simp only [joinAmp, List.count_append, List.count_cons_self, hp, ih', List.length_cons]
      omega

theorem parsedQuery_joinAmp (ps : List (GoString × GoString))
    (hlen : ps.length ≤ defaultMaxParams) :
    parsedQuery (joinAmp (ps.map pairText)) = ps.foldl addPair StrMap.empty := by
  have hclean : ∀ x ∈ ps.map pairText, ch '&' ∉ x ∧ x ≠ [] := by
    intro x hx
    obtain ⟨p, _, rfl⟩ := List.mem_map.1 hx
    exact pairText_clean p
  have hcount : ¬ (joinAmp (ps.map pairText)).count (ch '&') + 1 > defaultMaxParams := by
    rw [count_amp_joinAmp _ (fun x hx => (hclean x hx).1), List.length_map]
    unfold defaultMaxParams at hlen ⊢
    omega
  unfold parsedQuery ParseQuery
  rw [if_neg hcount, queryPieces_joinAmp _ hclean, foldl_parseQueryStep_pairText]

theorem get_foldl_addPair (ps : List (GoString × GoString)) (q : StrMap) (k : GoString) :
    (ps.foldl addPair q).get k =
      q.get k ++ ps.filterMap (fun p => if p.1 = k then some p.2 else none) := by
  induction ps generalizing q with
  | nil => simp
  | cons p ps ih =>
    simp only [List.foldl_cons, ih]
    by_cases h : p.1 = k
    · subst h
      simp [addPair, StrMap.get_put_same, List.filterMap_cons]
    · have h' : k ≠ p.1 := fun e => h e.symm
      simp [addPair, StrMap.get_put_ne _ _ _ _ h', List.filterMap_cons, h]

theorem Entries.lookup_of_mem (l : Entries) (hl : l.keys.Sorted (· < ·))
    (e : GoString × List GoString) (he : e ∈ l) : l.lookup e.1 = some e.2 := by
  induction l with
  | nil => cases he
  | cons d rest ih =>
    obtain ⟨k', v'⟩ := d
    have hl' : (∀ b ∈ Entries.keys rest, k' < b) ∧ (Entries.keys rest).Sorted (· < ·) := by
      simpa [Entries.keys, List.Sorted] using hl
    rcases List.mem_cons.1 he with h | h
    · subst h; simp [Entries.lookup]
    · have hlt : k' < e.1 := hl'.1 e.1 (List.mem_map_of_mem _ h)
      simp [Entries.lookup, ne_of_gt hlt, ih hl'.2 h]

theorem Entries.filterMap_pairs_of_not_mem (l : Entries) (k : GoString) (h : k ∉ l.keys) :
    l.pairs.filterMap (fun p => if p.1 = k then some p.2 else none) = [] := by
  rw [List.filterMap_eq_nil_iff]
  intro p hp
  simp only [Entries.pairs, List.mem_flatMap, List.mem_map] at hp
  obtain ⟨e, he, v, _, rfl⟩ := hp
  have : e.1 ≠ k := fun heq => h (heq ▸ List.mem_map_of_mem _ he)
  simp [this]

theorem Entries.filterMap_pairs (l : Entries) (hl : l.keys.Sorted (· < ·)) (k : GoString) :
    l.pairs.filterMap (fun p => if p.1 = k then some p.2 else none) = (l.lookup k).getD [] := by
  induction l with
  | nil => rfl
  | cons d rest ih =>
    obtain ⟨k', v'⟩ := d
    have hl' : (∀ b ∈ Entries.keys rest, k' < b) ∧ (Entries.keys rest).Sorted (· < ·) := by
      simpa [Entries.keys, List.Sorted] using hl
    have hsplit : Entries.pairs ((k', v') :: rest) = v'.map (fun v => (k', v)) ++ Entries.pairs rest := by
      simp [Entries.pairs]
    rw [hsplit, List.filterMap_append]
    by_cases h : k = k'
    · subst h
      have hnot : k ∉ Entries.keys rest := fun hm => lt_irrefl _ (hl'.1 k hm)
      rw [Entries.filterMap_pairs_of_not_mem rest k hnot]
      simp [Entries.lookup, List.filterMap_map, Function.comp_def]
    · have h' : ¬ k' = k := fun e => h e.symm
      rw [ih hl'.2]
      simp [Entries.lookup, h, List.filterMap_map, h', Function.comp_def]

theorem joinAmp_cons (p : GoString) (ps : List GoString) (h : ps ≠ []) :
    joinAmp (p :: ps) = p ++ ch '&' :: joinAmp ps := by
  rcases ps with _ | ⟨q, ps⟩
  · exact absurd rfl h
  · rfl

theorem encodePair_eq (buf : GoString) (p : GoString × GoString) :
    encodePair (QueryEscape p.1) buf p.2 =
      if buf = [] then pairText p else buf ++ ch '&' :: pairText p := by
  unfold encodePair pairText
  rcases buf with _ | ⟨b, buf⟩ <;> simp

theorem foldl_encodePair (ps : List (GoString × GoString)) (buf : GoString) :
    ps.foldl (fun buf p => encodePair (QueryEscape p.1) buf p.2) buf =
      if buf = [] then joinAmp (ps.map pairText)
      else if ps = [] then buf else buf ++ ch '&' :: joinAmp (ps.map pairText) := by
  induction ps generalizing buf with
  | nil => by_cases h : buf = [] <;> simp [h, joinAmp]
  | cons p ps ih =>
    rw [List.foldl_cons, ih, encodePair_eq]
    by_cases hb : buf = []
    · subst hb
      simp only [if_true, (pairText_clean p).2, if_false]
      rcases ps with _ | ⟨q, ps⟩
      · simp [joinAmp]
      · simp [joinAmp]
    · simp only [hb, if_false]
      have hne : buf ++ ch '&' :: pairText p ≠ [] := by simp
      simp only [hne, if_false]
      rcases ps with _ | ⟨q, ps⟩
      · simp [joinAmp]
      · simp [joinAmp]

theorem foldl_entries_eq_pairs (l : Entries) (buf : GoString) :
    l.foldl (fun buf e => e.2.foldl (encodePair (QueryEscape e.1)) buf) buf =
      l.pairs.foldl (fun buf p => encodePair (QueryEscape p.1) buf p.2) buf := by
  induction l generalizing buf with
  | nil => rfl
  | cons e rest ih =>
    have hsplit : Entries.pairs (e :: rest) = e.2.map (fun v => (e.1, v)) ++ Entries.pairs rest := by
      simp [Entries.pairs]
    rw [List.foldl_cons, ih, hsplit, List.foldl_append, List.foldl_map]

theorem foldl_keys_eq_entries (m : StrMap) (l : Entries) (hsub : ∀ e ∈ l, e ∈ m.entries)
    (buf : GoString) :
    l.keys.foldl (fun buf k => (m.get k).foldl (encodePair (QueryEscape k)) buf) buf =
      l.foldl (fun buf e => e.2.foldl (encodePair (QueryEscape e.1)) buf) buf := by
  induction l generalizing buf with
  | nil => rfl
  | cons e rest ih =>
    have hget : m.get e.1 = e.2 := by
      simp [StrMap.get, StrMap.lookup,
        Entries.lookup_of_mem m.entries m.2 e (hsub e (List.mem_cons_self _ _))]
    simp only [Entries.keys, List.map_cons, List.foldl_cons, hget]
    exact ih (fun x hx => hsub x (List.mem_cons_of_mem _ hx)) _

theorem Encode_eq_joinAmp (m : StrMap) :
    Values.Encode (some m) = joinAmp (m.entries.pairs.map pairText) := by
  unfold Values.Encode
  by_cases h0 : m.len = 0
  · have : m.entries = [] := List.length_eq_zero.1 h0
    simp [h0, this, Entries.pairs, joinAmp]
  · have hsorted : (m.entries.keys).insertionSort (· ≤ ·) = m.entries.keys :=
      List.Sorted.insertionSort_eq (List.Sorted.le_of_lt m.2)
    simp only [h0, if_false, hsorted]
    rw [foldl_keys_eq_entries m m.entries (fun _ h => h), foldl_entries_eq_pairs,
      foldl_encodePair]
    simp

theorem get_parsedQuery_Encode (m : StrMap) (k : GoString)
    (hlen : m.entries.pairs.length ≤ defaultMaxParams) :
    (parsedQuery (Values.Encode (some m))).get k = m.get k := by
  rw [Encode_eq_joinAmp, parsedQuery_joinAmp _ hlen, get_foldl_addPair,
    Entries.filterMap_pairs m.entries m.2]
  simp [StrMap.get, StrMap.lookup, StrMap.empty, Entries.lookup, StrMap.entries]

theorem queryPairs_joinAmp (ps : List (GoString × GoString)) :
    queryPairs (joinAmp (ps.map pairText)) = ps := by
  unfold queryPairs
  rw [queryPieces_joinAmp]
  · induction ps with
    | nil => rfl
    | cons p ps ih =>
      have hcut : cut (ch '=') (pairText p) = (QueryEscape p.1, QueryEscape p.2, true) :=
        cut_append _ _ _ (fun h => (QueryEscape_clean _ _ h).2.2 rfl)
      simp only [List.map_cons, List.filterMap_cons, (pairText_clean p).2, if_false, hcut,
        QueryUnescape_QueryEscape, ih]
  · intro x hx
    obtain ⟨p, _, rfl⟩ := List.mem_map.1 hx
    exact pairText_clean p

theorem queryValues_Encode (m : StrMap) (k : GoString) :
    queryValues (Values.Encode (some m)) k = m.get k := by
  unfold queryValues
  rw [Encode_eq_joinAmp, queryPairs_joinAmp, Entries.filterMap_pairs m.entries m.2]
  rfl

theorem lookup_foldl_put (l : Entries) (hl : l.keys.Sorted (· < ·)) (q : StrMap) (k : GoString) :
    (l.foldl (fun q e => q.put e.1 e.2) q).lookup k =
      match l.lookup k with
      | some vs => some vs
      | none => q.lookup k := by
  induction l generalizing q with
  | nil => rfl
  | cons d rest ih =>
    obtain ⟨k', v'⟩ := d
    have hl' : (∀ b ∈ Entries.keys rest, k' < b) ∧ (Entries.keys rest).Sorted (· < ·) := by
      simpa [Entries.keys, List.Sorted] using hl
    rw [List.foldl_cons, ih hl'.2]
    by_cases h : k = k'
    · subst h
      have hnone : Entries.lookup rest k = none := by
        cases hlk : Entries.lookup rest k with
        | none => rfl
        | some vs =>
          exfalso
          have hmem : k ∈ Entries.keys rest := by
            clear ih hl hl'
            induction rest with
            | nil => simp [Entries.lookup] at hlk
            | cons e r ihr =>
              simp only [Entries.lookup] at hlk
              split_ifs at hlk with he
              · simp [Entries.keys, he]
              · simp only [Entries.keys, List.map_cons, List.mem_cons]
                exact Or.inr (ihr hlk)
          exact lt_irrefl _ (hl'.1 k hmem)
      simp [hnone, Entries.lookup, StrMap.lookup_put_same]
    · simp only [Entries.lookup, h, if_false]
      cases Entries.lookup rest k with
      | none => simp [StrMap.lookup_put_ne _ _ _ _ h]
      | some vs => rfl

theorem get_mergeParams (q p : StrMap) (k : GoString) :
    (mergeParams q (some p)).get k =
      match p.lookup k with
      | some vs => vs
      | none => q.get k := by
  unfold mergeParams StrMap.get
  simp only
  rw [lookup_foldl_put p.entries p.2 q k]
  unfold StrMap.lookup
  cases Entries.lookup p.entries k <;> rfl

/-! ## Lemmas on `Do` and `do` -/

theorem applyOptions_completed_trace (os : List OptionsFn) (i : Nat) (c c' : RequestOpts)
    (h : (applyOptions os i c).1 = .completed c') :
    applyOptions os i c = (.completed c', (List.range' i os.length).map Event.option) := by
  have := applyOptions_append os [] i c c' h
  simpa [applyOptions] using this

theorem applyOptions_split (xs ys : List OptionsFn) (i : Nat) (c c' : RequestOpts)
    (h : (applyOptions (xs ++ ys) i c).1 = .completed c') :
    ∃ c1, (applyOptions xs i c).1 = .completed c1 ∧
      (applyOptions ys (i + xs.length) c1).1 = .completed c' := by
  induction xs generalizing i c with
  | nil => exact ⟨c, rfl, by simpa using h⟩
  | cons o os ih =>
    simp only [List.cons_append, applyOptions] at h
    rcases ho : o c with ⟨r, _ | e⟩ | _
    · rw [ho] at h
      obtain ⟨c1, h1, h2⟩ := ih (i + 1) r h
      refine ⟨c1, ?_, ?_⟩
      · simp only [applyOptions, ho]; exact h1
      · simpa [Nat.add_assoc, Nat.add_comm 1] using h2
    · rw [ho] at h; simp at h
    · rw [ho] at h; simp at h

theorem NewRequestWithContext_ok (env : Env) (ctx : Option Context) (method url : GoString)
    (body : Option Reader) (req0 : Request)
    (h : NewRequestWithContext env ctx method url body = .ok req0) :
    env.parseURL url = .ok req0.URL ∧ req0.Body = body ∧ body ≠ some .nilPointer ∧
      req0.Header = some StrMap.empty := by
  unfold NewRequestWithContext at h
  simp only at h
  generalize (if method = [] then str "GET" else method) = m at h
  split at h
  · simp at h
  · cases ctx with
    | none => simp at h
    | some cx =>
      simp only at h
      cases hpu : env.parseURL url with
      | error e => rw [hpu] at h; simp at h
      | ok u =>
        rw [hpu] at h
        simp only at h
        split at h
        · simp at h
        · rename_i hb
          simp only [NewRequestResult.ok.injEq] at h
          rw [← h]
          exact ⟨rfl, rfl, fun hn => hb hn, rfl⟩

theorem Do_completed (env : Env) (ctx : Option Context) (method url : GoString)
    (options : List OptionsFn) (c : RequestOpts)
    (h : (applyOptions options 0 (initialOpts method url)).1 = .completed c) :
    Do env ctx method url options =
      ⟨(do_ env ctx c).result,
        (List.range options.length).map Event.option ++ (do_ env ctx c).trace⟩ := by
  unfold Do
  rw [applyOptions_completed_trace options 0 _ c h]
  simp [List.range_eq_range']

theorem do_send (env : Env) (ctx : Option Context) (opts : RequestOpts) (req0 : Request)
    (cl : Client)
    (hreq : NewRequestWithContext env ctx opts.method opts.url opts.body = .ok req0)
    (hcl : opts.httpClient = some cl) :
    do_ env ctx opts =
      ⟨.returned (env.clientDo cl (prepare opts req0)).1 (env.clientDo cl (prepare opts req0)).2,
        [.newRequest opts.method opts.url opts.body, .send cl (prepare opts req0)]⟩ := by
  simp [do_, hreq, hcl]

/-! ## Lemmas on the five options -/

theorem Opt.fn_frame (env : Env) (o : Opt) (r r' : RequestOpts)
    (h : Opt.fn env o r = .returned r' none) : r'.method = r.method ∧ r'.url = r.url := by
  cases o with
  | body b => simp only [Opt.fn, WithBody, OptResult.returned.injEq] at h; rw [← h.1]; simp
  | jsonBody v =>
    simp only [Opt.fn, WithJsonBody] at h
    split at h
    · simp at h
    · split at h
      · simp at h
      · simp only [OptResult.returned.injEq] at h; rw [← h.1]; simp
  | param k v =>
    simp only [Opt.fn, WithParam] at h
    split at h
    · simp at h
    · simp only [OptResult.returned.injEq] at h; rw [← h.1]; simp
  | header k v =>
    simp only [Opt.fn, WithHeader] at h
    split at h
    · simp at h
    · simp only [OptResult.returned.injEq] at h; rw [← h.1]; simp
  | httpClient cl =>
    simp only [Opt.fn, WithHttpClient] at h
    split at h
    · simp at h
    · simp only [OptResult.returned.injEq] at h; rw [← h.1]; simp

theorem Opt.fn_httpClient (env : Env) (o : Opt) (r r' : RequestOpts)
    (h : Opt.fn env o r = .returned r' none) (hc : r.httpClient.isSome = true) :
    r'.httpClient.isSome = true := by
  cases o with
  | body b =>
    simp only [Opt.fn, WithBody, OptResult.returned.injEq] at h; rw [← h.1]; simpa using hc
  | jsonBody v =>
    simp only [Opt.fn, WithJsonBody] at h
    split at h
    · simp at h
    · split at h
      · simp at h
      · simp only [OptResult.returned.injEq] at h; rw [← h.1]; simpa using hc
  | param k v =>
    simp only [Opt.fn, WithParam] at h
    split at h
    · simp at h
    · simp only [OptResult.returned.injEq] at h; rw [← h.1]; simpa using hc
  | header k v =>
    simp only [Opt.fn, WithHeader] at h
    split at h
    · simp at h
    · simp only [OptResult.returned.injEq] at h; rw [← h.1]; simpa using hc
  | httpClient cl =>
    simp only [Opt.fn, WithHttpClient] at h
    split at h
    · simp at h
    · simp only [OptResult.returned.injEq] at h; rw [← h.1]; simp

theorem Opt.fn_params (env : Env) (o : Opt) (r r' : RequestOpts)
    (h : Opt.fn env o r = .returned r' none) (hp : o.isParam = false) :
    r'.params = r.params := by
  cases o with
  | body b => simp only [Opt.fn, WithBody, OptResult.returned.injEq] at h; rw [← h.1]
  | jsonBody v =>
    simp only [Opt.fn, WithJsonBody] at h
    split at h
    · simp at h
    · split at h
      · simp at h
      · simp only [OptResult.returned.injEq] at h; rw [← h.1]
  | param k v => simp [Opt.isParam] at hp
  | header k v =>
    simp only [Opt.fn, WithHeader] at h
    split at h
    · simp at h
    · simp only [OptResult.returned.injEq] at h; rw [← h.1]
  | httpClient cl =>
    simp only [Opt.fn, WithHttpClient] at h
    split at h
    · simp at h
    · simp only [OptResult.returned.injEq] at h; rw [← h.1]

theorem Header.Values_Set_same (h h' : Header) (key value : GoString)
    (hs : Header.Set h key value = some h') : Header.Values h' key = [value] := by
  cases h with
  | none => simp [Header.Set, GoMap.assign] at hs
  | some m =>
    simp only [Header.Set, GoMap.assign, Option.some.injEq] at hs
    subst hs
    simp [Header.Values, GoMap.get, StrMap.get_put_same]

theorem Header.Values_Set_ne (h h' : Header) (key value k : GoString)
    (hs : Header.Set h key value = some h')
    (hk : CanonicalMIMEHeaderKey key ≠ CanonicalMIMEHeaderKey k) :
    Header.Values h' k = Header.Values h k := by
  cases h with
  | none => simp [Header.Set, GoMap.assign] at hs
  | some m =>
    simp only [Header.Set, GoMap.assign, Option.some.injEq] at hs
    subst hs
    simp [Header.Values, GoMap.get, StrMap.get_put_ne _ _ _ _ (Ne.symm hk)]

theorem Opt.fn_headerValues (env : Env) (o : Opt) (r r' : RequestOpts) (K : GoString)
    (h : Opt.fn env o r = .returned r' none) (ht : o.touchesHeader K = false) :
    Header.Values r'.headers K = Header.Values r.headers K := by
  cases o with
  | body b => simp only [Opt.fn, WithBody, OptResult.returned.injEq] at h; rw [← h.1]
  | jsonBody v =>
    simp only [Opt.fn, WithJsonBody] at h
    split at h
    · simp at h
    · split at h
      · simp at h
      · rename_i hd hs
        simp only [OptResult.returned.injEq] at h
        rw [← h.1]
        exact Header.Values_Set_ne _ _ _ _ K hs (by simpa [Opt.touchesHeader] using ht)
  | param k v =>
    simp only [Opt.fn, WithParam] at h
    split at h
    · simp at h
    · simp only [OptResult.returned.injEq] at h; rw [← h.1]
  | header k v =>
    simp only [Opt.fn, WithHeader] at h
    split at h
    · simp at h
    · rename_i hd hs
      simp only [OptResult.returned.injEq] at h
      rw [← h.1]
      exact Header.Values_Set_ne _ _ _ _ K hs (by simpa [Opt.touchesHeader] using ht)
  | httpClient cl =>
    simp only [Opt.fn, WithHttpClient] at h
    split at h
    · simp at h
    · simp only [OptResult.returned.injEq] at h; rw [← h.1]

theorem Opt.fn_header_sets (env : Env) (K V : GoString) (r r' : RequestOpts)
    (h : Opt.fn env (.header K V) r = .returned r' none) :
    Header.Values r'.headers K = [V] := by
  simp only [Opt.fn, WithHeader] at h
  split at h
  · simp at h
  · rename_i hd hs
    simp only [OptResult.returned.injEq] at h
    rw [← h.1]
    exact Header.Values_Set_same _ _ _ _ hs

theorem applyOptions_opts_invariant (env : Env) (P : RequestOpts → Prop) (os : List Opt)
    (hstep : ∀ o ∈ os, ∀ r r', P r → Opt.fn env o r = .returned r' none → P r')
    (i : Nat) (c c' : RequestOpts) (hc : P c)
    (h : (applyOptions (os.map (Opt.fn env)) i c).1 = .completed c') : P c' := by
  refine applyOptions_invariant P (os.map (Opt.fn env)) ?_ i c c' hc h
  intro f hf r r' hr hfr
  obtain ⟨o, ho, rfl⟩ := List.mem_map.1 hf
  exact hstep o ho r r' hr hfr

theorem completed_opts_ready (env : Env) (method url : GoString) (os : List Opt)
    (c : RequestOpts)
    (h : (applyOptions (os.map (Opt.fn env)) 0 (initialOpts method url)).1 = .completed c) :
    c.method = method ∧ c.url = url ∧ ∃ cl, c.httpClient = some cl := by
  have h1 := applyOptions_opts_invariant env
    (fun r => r.method = method ∧ r.url = url ∧ r.httpClient.isSome = true) os
    (fun o _ r r' hr hfr =>
      ⟨(Opt.fn_frame env o r r' hfr).1.trans hr.1, (Opt.fn_frame env o r r' hfr).2.trans hr.2.1,
        Opt.fn_httpClient env o r r' hfr hr.2.2⟩)
    0 (initialOpts method url) c ⟨rfl, rfl, rfl⟩ h
  exact ⟨h1.1, h1.2.1, Option.isSome_iff_exists.1 h1.2.2⟩

theorem Opt.fn_frame_any (env : Env) (o : Opt) (r r' : RequestOpts) (err : Option GoError)
    (h : Opt.fn env o r = .returned r' err) : r'.method = r.method ∧ r'.url = r.url := by
  cases o <;>
    simp only [Opt.fn, WithBody, WithJsonBody, WithParam, WithHeader, WithHttpClient] at h <;>
    (repeat' split at h) <;>
    simp only [OptResult.returned.injEq, reduceCtorEq] at h <;>
    (try obtain ⟨rfl, _⟩ := h) <;> simp

theorem applyOptions_opts_acc (env : Env) (P : RequestOpts → Prop) (os : List Opt)
    (hstep : ∀ o ∈ os, ∀ r r' err, P r → Opt.fn env o r = .returned r' err → P r')
    (i : Nat) (c c' : RequestOpts) (hc : P c)
    (h : ((applyOptions (os.map (Opt.fn env)) i c).1).acc = some c') : P c' := by
  induction os generalizing i c with
  | nil =>
    simp only [List.map_nil, applyOptions, LoopResult.acc, Option.some.injEq] at h
    exact h ▸ hc
  | cons o os ih =>
    simp only [List.map_cons, applyOptions] at h
    rcases ho : Opt.fn env o c with ⟨r, _ | e⟩ | _
    · rw [ho] at h
      exact ih (fun o' ho' => hstep o' (List.mem_cons_of_mem _ ho')) (i + 1) r
        (hstep o (List.mem_cons_self _ _) c r none hc ho) h
    · rw [ho] at h
      simp only [LoopResult.acc, Option.some.injEq] at h
      exact h ▸ hstep o (List.mem_cons_self _ _) c r (some e) hc ho
    · rw [ho] at h; simp [LoopResult.acc] at h

theorem applyOptions_opts_no_panic (env : Env) (P : RequestOpts → Prop) (os : List Opt)
    (hstep : ∀ o ∈ os, ∀ r r' err, P r → Opt.fn env o r = .returned r' err → P r')
    (hsafe : ∀ o ∈ os, ∀ r, P r → Opt.fn env o r ≠ .panicked)
    (i : Nat) (c : RequestOpts) (hc : P c) :
    (applyOptions (os.map (Opt.fn env)) i c).1 ≠ .panicked := by
  induction os generalizing i c with
  | nil => simp [applyOptions]
  | cons o os ih =>
    simp only [List.map_cons, applyOptions]
    rcases ho : Opt.fn env o c with ⟨r, _ | e⟩ | _
    · simp only
      exact ih (fun o' ho' => hstep o' (List.mem_cons_of_mem _ ho'))
        (fun o' ho' => hsafe o' (List.mem_cons_of_mem _ ho')) (i + 1) r
        (hstep o (List.mem_cons_self _ _) c r none hc ho)
    · simp
    · exact absurd ho (hsafe o (List.mem_cons_self _ _) c hc)

theorem Do_construction_error (env : Env) (ctx : Option Context) (method url : GoString)
    (options : List OptionsFn) (c : RequestOpts) (e : GoError)
    (hok : (applyOptions options 0 (initialOpts method url)).1 = .completed c)
    (hreq : NewRequestWithContext env ctx c.method c.url c.body = .error e) :
    Do env ctx method url options =
      ⟨.returned none (some e),
        (List.range options.length).map Event.option ++ [.newRequest c.method c.url c.body]⟩ := by
  rw [Do_completed env ctx method url options c hok]
  simp [do_, hreq]

/-! ## Equality of maps -/

theorem Entries.mem_keys_of_lookup (l : Entries) (k : GoString) (v : List GoString)
    (h : l.lookup k = some v) : k ∈ l.keys := by
  induction l with
  | nil => simp [Entries.lookup] at h
  | cons e rest ih =>
    simp only [Entries.lookup] at h
    split_ifs at h with he
    · simp [Entries.keys, he]
    · simp only [Entries.keys, List.map_cons, List.mem_cons]
      exact Or.inr (ih h)

theorem Entries.lookup_of_not_mem (l : Entries) (k : GoString) (h : k ∉ l.keys) :
    l.lookup k = none := by
  cases hl : l.lookup k with
  | none => rfl
  | some v => exact absurd (Entries.mem_keys_of_lookup l k v hl) h

theorem Entries.mem_keys_put (l : Entries) (k x : GoString) (v : List GoString)
    (hx : x ∈ (l.put k v).keys) : x = k ∨ x ∈ l.keys := by
  induction l with
  | nil => simpa [Entries.put, Entries.keys] using hx
  | cons e rest ih =>
    obtain ⟨k', v'⟩ := e
    simp only [Entries.put] at hx
    split_ifs at hx with h1 h2
    · simpa [Entries.keys] using hx
    · subst h2; simp only [Entries.keys, List.map_cons, List.mem_cons] at hx ⊢; tauto
    · simp only [Entries.keys, List.map_cons, List.mem_cons] at hx ⊢
      rcases hx with hx | hx
      · exact Or.inr (Or.inl hx)
      · rcases ih hx with h | h
        · exact Or.inl h
        · exact Or.inr (Or.inr h)

theorem Entries.eq_of_lookup_eq (l1 l2 : Entries) (h1 : l1.keys.Sorted (· < ·))
    (h2 : l2.keys.Sorted (· < ·)) (h : ∀ k, l1.lookup k = l2.lookup k) : l1 = l2 := by
  induction l1 generalizing l2 with
  | nil =>
    rcases l2 with _ | ⟨⟨k2, v2⟩, r2⟩
    · rfl
    · have := h k2
      simp [Entries.lookup] at this
  | cons e1 r1 ih =>
    obtain ⟨k1, v1⟩ := e1
    rcases l2 with _ | ⟨⟨k2, v2⟩, r2⟩
    · have := h k1
      simp [Entries.lookup] at this
    · have hs1 : (∀ b ∈ Entries.keys r1, k1 < b) ∧ (Entries.keys r1).Sorted (· < ·) := by
        simpa [Entries.keys, List.Sorted] using h1
      have hs2 : (∀ b ∈ Entries.keys r2, k2 < b) ∧ (Entries.keys r2).Sorted (· < ·) := by
        simpa [Entries.keys, List.Sorted] using h2
      have hk : k1 = k2 := by
        by_contra hne
        have ha : Entries.lookup r2 k1 = some v1 := by
          have := h k1
          simpa [Entries.lookup, hne] using this.symm
        have hb : Entries.lookup r1 k2 = some v2 := by
          have := h k2
          simpa [Entries.lookup, Ne.symm hne] using this
        have hlt1 := hs2.1 k1 (Entries.mem_keys_of_lookup r2 k1 v1 ha)
        have hlt2 := hs1.1 k2 (Entries.mem_keys_of_lookup r1 k2 v2 hb)
        exact lt_asymm hlt1 hlt2
      subst hk
      have hv : v1 = v2 := by
        have := h k1
        simpa [Entries.lookup] using this
      subst hv
      have hrest : ∀ k, Entries.lookup r1 k = Entries.lookup r2 k := by
        intro k
        by_cases hkk : k = k1
        · subst hkk
          rw [Entries.lookup_of_not_mem r1 k (fun hm => lt_irrefl _ (hs1.1 k hm)),
            Entries.lookup_of_not_mem r2 k (fun hm => lt_irrefl _ (hs2.1 k hm))]
        · have := h k
          simpa [Entries.lookup, hkk] using this
      rw [ih r2 hs1.2 hs2.2 hrest]

theorem StrMap.ext_lookup (m1 m2 : StrMap) (h : ∀ k, m1.lookup k = m2.lookup k) : m1 = m2 :=
  Subtype.ext (Entries.eq_of_lookup_eq m1.1 m2.1 m1.2 m2.2 h)

theorem StrMap.put_put_same (m : StrMap) (k : GoString) (v1 v2 : List GoString) :
    (m.put k v1).put k v2 = m.put k v2 := by
  apply StrMap.ext_lookup
  intro x
  by_cases hx : x = k
  · subst hx; simp [StrMap.lookup_put_same]
  · simp [StrMap.lookup_put_ne _ _ _ _ hx]

theorem StrMap.put_comm (m : StrMap) (k1 k2 : GoString) (v1 v2 : List GoString)
    (hne : k1 ≠ k2) : (m.put k1 v1).put k2 v2 = (m.put k2 v2).put k1 v1 := by
  apply StrMap.ext_lookup
  intro x
  by_cases hx1 : x = k1
  · subst hx1
    rw [StrMap.lookup_put_ne _ _ _ _ hne, StrMap.lookup_put_same, StrMap.lookup_put_same]
  · by_cases hx2 : x = k2
    · subst hx2
      rw [StrMap.lookup_put_same, StrMap.lookup_put_ne _ _ _ _ hx1, StrMap.lookup_put_same]
    · rw [StrMap.lookup_put_ne _ _ _ _ hx2, StrMap.lookup_put_ne _ _ _ _ hx1,
        StrMap.lookup_put_ne _ _ _ _ hx1, StrMap.lookup_put_ne _ _ _ _ hx2]

/-! ## What each option does -/

theorem canonical_content_type :
    CanonicalMIMEHeaderKey (str "Content-Type") = str "Content-Type" := by decide

theorem WithBody_iff (b : Option Reader) (r r' : RequestOpts) :
    WithBody b r = .returned r' none ↔ r' = { r with body := b } := by
  simp [WithBody, eq_comm]

theorem WithParam_iff (k v : GoString) (r r' : RequestOpts) :
    WithParam k v r = .returned r' none ↔
      ∃ p, r.params = some p ∧ r' = { r with params := some (p.put k [v]) } := by
  unfold WithParam Values.Set GoMap.assign
  cases hp : r.params with
  | none => simp
  | some p => simp [eq_comm]

theorem WithHeader_iff (k v : GoString) (r r' : RequestOpts) :
    WithHeader k v r = .returned r' none ↔
      ∃ h, r.headers = some h ∧
        r' = { r with headers := some (h.put (CanonicalMIMEHeaderKey k) [v]) } := by
  unfold WithHeader Header.Set GoMap.assign
  cases hp : r.headers with
  | none => simp
  | some p => simp [eq_comm]

theorem WithHttpClient_iff (cl : Option Client) (r r' : RequestOpts) :
    WithHttpClient cl r = .returned r' none ↔
      ∃ c, cl = some c ∧ r' = { r with httpClient := some c } := by
  unfold WithHttpClient
  cases cl with
  | none => simp
  | some c => simp [eq_comm]

theorem WithJsonBody_iff (env : Env) (v : GoValue) (r r' : RequestOpts) :
    WithJsonBody env v r = .returned r' none ↔
      ∃ buf h, env.jsonEncode v = .ok buf ∧ r.headers = some h ∧
        r' = { r with body := some (.stream buf),
                      headers := some (h.put (str "Content-Type") [str "application/json"]) } := by
  unfold WithJsonBody Header.Set GoMap.assign
  rw [canonical_content_type]
  cases hv : env.jsonEncode v with
  | error e => simp
  | ok buf =>
    cases hp : r.headers with
    | none => simp
    | some p => simp [eq_comm]

theorem Opt.fn_error_unchanged (env : Env) (o : Opt) (r r' : RequestOpts) (e : GoError)
    (h : Opt.fn env o r = .returned r' (some e)) : r' = r := by
  cases o <;>
    simp only [Opt.fn, WithBody, WithJsonBody, WithParam, WithHeader, WithHttpClient] at h <;>
    (repeat' split at h) <;>
    simp only [OptResult.returned.injEq, reduceCtorEq, and_false, false_and] at h <;>
    (try exact h.1.symm)

theorem andThen_iff (o1 o2 : OptionsFn) (r r' : RequestOpts) :
    andThen o1 o2 r = .returned r' none ↔
      ∃ r1, o1 r = .returned r1 none ∧ o2 r1 = .returned r' none := by
  unfold andThen
  rcases h : o1 r with ⟨r1, _ | e⟩ | _ <;> simp

/-! ## Two options in a row -/

theorem opts_commute (env : Env) (o1 o2 : Opt) (r r' : RequestOpts)
    (hk : o1.kind ≠ o2.kind) (hc : Opt.conflict o1 o2 = false)
    (h : andThen (Opt.fn env o1) (Opt.fn env o2) r = .returned r' none) :
    andThen (Opt.fn env o2) (Opt.fn env o1) r = .returned r' none := by
  rw [andThen_iff] at h ⊢
  obtain ⟨r1, h1, h2⟩ := h
  cases o1 <;> cases o2 <;>
    simp only [Opt.kind, ne_eq, not_true_eq_false, Opt.conflict, Bool.true_eq_false] at hk hc <;>
    simp only [Opt.fn, WithBody_iff, WithParam_iff, WithHeader_iff, WithHttpClient_iff,
      WithJsonBody_iff] at h1 h2 ⊢
  all_goals
    obtain ⟨a, b, ha, hb, rfl⟩ := h1
    obtain ⟨x, y, hx, hy, rfl⟩ := h2
    simp_all
  all_goals
    subst_vars
    first
    | exact StrMap.put_comm _ _ _ _ _ (Ne.symm hc)
    | exact StrMap.put_comm _ _ _ _ _ hc

theorem opts_override (env : Env) (o1 o2 : Opt) (r r' : RequestOpts)
    (hs : Opt.sameSlot o1 o2 = true)
    (h : andThen (Opt.fn env o1) (Opt.fn env o2) r = .returned r' none) :
    Opt.fn env o2 r = .returned r' none := by
  rw [andThen_iff] at h
  obtain ⟨r1, h1, h2⟩ := h
  cases o1 <;> cases o2 <;>
    simp only [Opt.sameSlot, Bool.false_eq_true, beq_iff_eq] at hs <;>
    simp only [Opt.fn, WithBody_iff, WithParam_iff, WithHeader_iff, WithHttpClient_iff,
      WithJsonBody_iff] at h1 h2 ⊢
  all_goals
    obtain ⟨a, b, ha, hb, rfl⟩ := h1
    obtain ⟨x, y, hx, hy, rfl⟩ := h2
    simp_all
  all_goals
    subst_vars
    exact StrMap.put_put_same _ _ _ _

theorem opts_idempotent (env : Env) (o : Opt) (r r' : RequestOpts)
    (h : Opt.fn env o r = .returned r' none) : Opt.fn env o r' = .returned r' none := by
  cases o <;>
    simp only [Opt.fn, WithBody_iff, WithParam_iff, WithHeader_iff, WithHttpClient_iff,
      WithJsonBody_iff] at h ⊢
  all_goals
    obtain ⟨a, b, ha, hb, rfl⟩ := h
    simp_all [StrMap.put_put_same]

theorem singleValued_empty : GoMap.singleValued (some StrMap.empty) :=
  ⟨StrMap.empty, rfl, fun k vs h => by simp [StrMap.lookup, StrMap.empty, Entries.lookup] at h⟩

theorem singleValued_put (s : StrMap) (k v : GoString)
    (h : GoMap.singleValued (some s)) : GoMap.singleValued (some (s.put k [v])) := by
  obtain ⟨s', hs, hval⟩ := h
  cases hs
  refine ⟨_, rfl, ?_⟩
  intro x vs hx
  by_cases hxk : x = k
  · subst hxk
    rw [StrMap.lookup_put_same] at hx
    exact ⟨v, (Option.some.inj hx).symm⟩
  · rw [StrMap.lookup_put_ne _ _ _ _ hxk] at hx
    exact hval x vs hx

theorem StrMap.keys_nodup (s : StrMap) : s.entries.keys.Nodup :=
  List.Sorted.nodup s.2

theorem opts_keep_singleValued (env : Env) (o : Opt) (r r' : RequestOpts)
    (err : Option GoError)
    (hr : GoMap.singleValued r.headers ∧ GoMap.singleValued r.params)
    (h : Opt.fn env o r = .returned r' err) :
    GoMap.singleValued r'.headers ∧ GoMap.singleValued r'.params := by
  cases err with
  | some e => rw [Opt.fn_error_unchanged env o r r' e h]; exact hr
  | none =>
    cases o <;>
      simp only [Opt.fn, WithBody_iff, WithParam_iff, WithHeader_iff, WithHttpClient_iff,
        WithJsonBody_iff] at h
    · subst h; exact hr
    · obtain ⟨buf, hd, _, hh, rfl⟩ := h
      exact ⟨singleValued_put hd _ _ (hh ▸ hr.1), hr.2⟩
    · obtain ⟨p, hp, rfl⟩ := h
      exact ⟨hr.1, singleValued_put p _ _ (hp ▸ hr.2)⟩
    · obtain ⟨hd, hh, rfl⟩ := h
      exact ⟨singleValued_put hd _ _ (hh ▸ hr.1), hr.2⟩
    · obtain ⟨c, _, rfl⟩ := h
      exact hr

theorem opts_no_panic (env : Env) (o : Opt) (r : RequestOpts)
    (hr : GoMap.singleValued r.headers ∧ GoMap.singleValued r.params) :
    Opt.fn env o r ≠ .panicked := by
  obtain ⟨⟨h, hh, _⟩, ⟨p, hp, _⟩⟩ := hr
  cases o <;>
    simp only [Opt.fn, WithBody, WithJsonBody, WithParam, WithHeader, WithHttpClient,
      Header.Set, Values.Set, GoMap.assign, hh, hp]
  · simp
  · split <;> simp
  · simp
  · simp
  · split <;> simp

/-! ## Lemmas on the order of keys -/

theorem queryKeys_joinAmp (ps : List (GoString × GoString)) :
    queryKeys (joinAmp (ps.map pairText)) = ps.map Prod.fst := by
  unfold queryKeys
  rw [queryPieces_joinAmp]
  · induction ps with
    | nil => rfl
    | cons p ps ih =>
      have hcut : cut (ch '=') (pairText p) = (QueryEscape p.1, QueryEscape p.2, true) :=
        cut_append _ _ _ (fun h => (QueryEscape_clean _ _ h).2.2 rfl)
      simp only [List.map_cons, List.filterMap_cons, hcut, QueryUnescape_QueryEscape, ih]
  · intro x hx
    obtain ⟨p, _, rfl⟩ := List.mem_map.1 hx
    exact pairText_clean p

theorem Entries.pairs_keys_sorted (l : Entries) (hl : l.keys.Sorted (· < ·)) :
    (l.pairs.map Prod.fst).Sorted (· ≤ ·) := by
  induction l with
  | nil => simp [Entries.pairs]
  | cons e rest ih =>
    obtain ⟨k, vs⟩ := e
    have hl' : (∀ b ∈ Entries.keys rest, k < b) ∧ (Entries.keys rest).Sorted (· < ·) := by
      simpa [Entries.keys, List.Sorted] using hl
    have hsplit : Entries.pairs ((k, vs) :: rest) = vs.map (fun v => (k, v)) ++ Entries.pairs rest := by
      simp [Entries.pairs]
    rw [hsplit, List.map_append, List.map_map]
    unfold List.Sorted
    rw [List.pairwise_append]
    refine ⟨?_, ih hl'.2, ?_⟩
    · rw [List.pairwise_map]
      exact List.pairwise_of_forall (fun _ _ => le_refl k)
    · intro a ha b hb
      simp only [List.mem_map, Function.comp_apply] at ha
      obtain ⟨_, _, rfl⟩ := ha
      simp only [Entries.pairs, List.mem_map, List.mem_flatMap] at hb
      obtain ⟨p, ⟨e, he, v, _, rfl⟩, rfl⟩ := hb
      exact le_of_lt (hl'.1 e.1 (List.mem_map_of_mem _ he))

theorem queryKeys_Encode_sorted (m : StrMap) :
    (queryKeys (Values.Encode (some m))).Sorted (· ≤ ·) := by
  rw [Encode_eq_joinAmp, queryKeys_joinAmp]
  exact Entries.pairs_keys_sorted m.entries m.2

theorem insertionSort_perm_eq (l1 l2 : List GoString) (h : l1.Perm l2) :
    l1.insertionSort (· ≤ ·) = l2.insertionSort (· ≤ ·) :=
  List.eq_of_perm_of_sorted
    (((List.perm_insertionSort _ l1).trans h).trans (List.perm_insertionSort _ l2).symm)
    (List.sorted_insertionSort _ l1) (List.sorted_insertionSort _ l2)

theorem mergeEntries_perm (q : StrMap) (l1 l2 : Entries) (h : l1.Perm l2)
    (hn : l1.keys.Nodup) : mergeEntries q l1 = mergeEntries q l2 := by
  unfold mergeEntries
  apply List.Perm.foldl_eq' h
  intro x hx y hy z
  by_cases hxy : x.1 = y.1
  · have : x = y := List.inj_on_of_nodup_map hn hx hy hxy
    rw [this]
  · exact StrMap.put_comm z x.1 y.1 x.2 y.2 hxy

theorem WithParam_comm (k1 v1 k2 v2 : GoString) (hne : k1 ≠ k2) (r : RequestOpts) :
    andThen (WithParam k1 v1) (WithParam k2 v2) r =
      andThen (WithParam k2 v2) (WithParam k1 v1) r := by
  unfold andThen WithParam Values.Set GoMap.assign
  cases hp : r.params with
  | none => simp
  | some p => simp [StrMap.put_comm p k1 k2 [v1] [v2] hne]

theorem applyOptions_two (o1 o2 : OptionsFn) (r : RequestOpts) :
    (applyOptions [o1, o2] 0 r).1 =
      match andThen o1 o2 r with
      | .returned c none => .completed c
      | .returned c (some e) => .failed c e
      | .panicked => .panicked := by
  unfold andThen
  simp only [applyOptions]
  rcases h1 : o1 r with ⟨r1, _ | e⟩ | _
  · simp only
    rcases h2 : o2 r1 with ⟨r2, _ | e⟩ | _ <;> simp
  · simp
  · simp

theorem Do_two_params_comm (env : Env) (ctx : Option Context) (method url : GoString)
    (k1 v1 k2 v2 : GoString) (hne : k1 ≠ k2) :
    Do env ctx method url [WithParam k1 v1, WithParam k2 v2] =
      Do env ctx method url [WithParam k2 v2, WithParam k1 v1] := by
  simp [Do, applyOptions, WithParam, Values.Set, GoMap.assign, initialOpts,
    StrMap.put_comm StrMap.empty k1 k2 [v1] [v2] hne]

theorem applyOptions_trace_no_send (os : List OptionsFn) (i : Nat) (c : RequestOpts) :
    ((applyOptions os i c).2).filter Event.isSend = [] := by
  induction os generalizing i c with
  | nil => rfl
  | cons o os ih =>
    simp only [applyOptions]
    rcases ho : o c with ⟨r, _ | e⟩ | _
    · simp only [List.filter_cons, Event.isSend, Bool.false_eq_true, if_false]
      exact ih (i + 1) r
    · rfl
    · rfl

theorem do_outcome_cases (env : Env) (ctx : Option Context) (c : RequestOpts) :
    (do_ env ctx c).result = .panicked ∨
      (∃ e, (do_ env ctx c).result = .returned none (some e) ∧
        (do_ env ctx c).trace.filter Event.isSend = []) ∨
      (∃ cl req, (do_ env ctx c).trace.filter Event.isSend = [.send cl req] ∧
        (do_ env ctx c).result = .returned (env.clientDo cl req).1 (env.clientDo cl req).2) := by
  unfold do_
  cases NewRequestWithContext env ctx c.method c.url c.body with
  | panicked => exact Or.inl rfl
  | error e => exact Or.inr (Or.inl ⟨e, rfl, rfl⟩)
  | ok req0 =>
    cases c.httpClient with
    | none => exact Or.inl rfl
    | some cl => exact Or.inr (Or.inr ⟨cl, prepare c req0, rfl, rfl⟩)

theorem Do_outcome_cases (env : Env) (ctx : Option Context) (method url : GoString)
    (options : List OptionsFn) :
    (Do env ctx method url options).result = .panicked ∨
      (∃ e, (Do env ctx method url options).result = .returned none (some e) ∧
        (Do env ctx method url options).trace.filter Event.isSend = []) ∨
      (∃ cl req, (Do env ctx method url options).trace.filter Event.isSend = [.send cl req] ∧
        (Do env ctx method url options).result =
          .returned (env.clientDo cl req).1 (env.clientDo cl req).2) := by
  have hns := applyOptions_trace_no_send options 0 (initialOpts method url)
  unfold Do
  rcases hl : applyOptions options 0 (initialOpts method url) with ⟨lr, t⟩
  rw [hl] at hns
  simp only at hns
  cases lr with
  | panicked => exact Or.inl rfl
  | failed c e => exact Or.inr (Or.inl ⟨e, rfl, hns⟩)
  | completed c =>
    simp only [List.filter_append, hns, List.nil_append]
    exact do_outcome_cases env ctx c

/-- A query with more pieces than `url.ParseQuery` accepts parses to the empty map, with
an error. -/
theorem ParseQuery_over_limit (query : GoString)
    (h : query.count (ch '&') + 1 > defaultMaxParams) :
    ParseQuery query =
      (StrMap.empty, some ⟨"number of URL query parameters exceeded limit"⟩) := by
  simp [ParseQuery, h]

theorem mergeParams_empty (p : StrMap) : mergeParams StrMap.empty (some p) = p := by
  apply StrMap.ext_lookup
  intro k
  unfold mergeParams
  simp only
  rw [lookup_foldl_put p.entries p.2 StrMap.empty k]
  unfold StrMap.lookup
  cases Entries.lookup p.entries k <;> rfl

/-- When the raw query of the target URL has more pieces than `url.ParseQuery` accepts
and `params` is not empty, `do` sends the encoded `params` alone. -/
theorem prepare_over_limit (c : RequestOpts) (req0 : Request)
    (h : req0.URL.RawQuery.count (ch '&') + 1 > defaultMaxParams)
    (hp : GoMap.len c.params > 0) :
    (prepare c req0).URL.RawQuery = Values.Encode c.params := by
  cases hpar : c.params with
  | none => rw [hpar] at hp; simp [GoMap.len] at hp
  | some p =>
    have hp' : 0 < GoMap.len (some p) := hpar ▸ hp
    by_cases hq : req0.URL.RawQuery = []
    · simp [prepare, hpar, hp', hq]
    · have hparse : req0.URL.Query = StrMap.empty := by
        simp [URL.Query, parsedQuery, ParseQuery_over_limit _ h]
      simp [prepare, hpar, hp', hq, hparse, mergeParams_empty]

/-- A body that is a nil `*bytes.Buffer` makes the constructor, and so `Do`, panic. -/
theorem Do_nil_buffer_panics :
    Do sampleEnv (some ⟨1⟩) (str "POST") (str "/p") [WithBody (some .nilPointer)] =
      ⟨.panicked, [.option 0, .newRequest (str "POST") (str "/p") (some .nilPointer)]⟩ := by
  decide

/-! ## Lemmas on canonical header keys -/

theorem canonicalLoop_cons (upper : Bool) (c : Byte) (rest : GoString) :
    canonicalLoop upper (c :: rest) =
      canonicalByte upper c :: canonicalLoop (canonicalByte upper c == ch '-') rest := rfl

set_option maxRecDepth 100000 in
theorem valid_asciiLower (c : Byte) :
    validHeaderFieldByte (asciiLower c) = validHeaderFieldByte c := by
  revert c; decide!

set_option maxRecDepth 100000 in
theorem canonicalByte_asciiLower (c : Byte) :
    canonicalByte true (asciiLower c) = canonicalByte true c ∧
      canonicalByte false (asciiLower c) = canonicalByte false c := by
  revert c; decide!

set_option maxRecDepth 100000 in
theorem canonicalByte_fixed (c : Byte) :
    (canonicalByte true (canonicalByte true c) = canonicalByte true c ∧
      canonicalByte false (canonicalByte false c) = canonicalByte false c) ∧
    (validHeaderFieldByte (canonicalByte true c) = validHeaderFieldByte c ∧
      validHeaderFieldByte (canonicalByte false c) = validHeaderFieldByte c) := by
  revert c; decide!

theorem canonicalLoop_same_case (s t : GoString) (upper : Bool)
    (h : s.map asciiLower = t.map asciiLower) : canonicalLoop upper s = canonicalLoop upper t := by
  induction s generalizing t upper with
  | nil =>
    cases t with
    | nil => rfl
    | cons d t => simp at h
  | cons c s ih =>
    cases t with
    | nil => simp at h
    | cons d t =>
      simp only [List.map_cons, List.cons.injEq] at h
      have hb : canonicalByte upper c = canonicalByte upper d := by
        cases upper
        · rw [← (canonicalByte_asciiLower c).2, ← (canonicalByte_asciiLower d).2, h.1]
        · rw [← (canonicalByte_asciiLower c).1, ← (canonicalByte_asciiLower d).1, h.1]
      rw [canonicalLoop_cons, canonicalLoop_cons, hb, ih t _ h.2]

theorem all_valid_same_case (s t : GoString) (h : s.map asciiLower = t.map asciiLower) :
    s.all validHeaderFieldByte = t.all validHeaderFieldByte := by
  induction s generalizing t with
  | nil =>
    cases t with
    | nil => rfl
    | cons d t => simp at h
  | cons c s ih =>
    cases t with
    | nil => simp at h
    | cons d t =>
      simp only [List.map_cons, List.cons.injEq] at h
      have hv : validHeaderFieldByte c = validHeaderFieldByte d := by
        rw [← valid_asciiLower c, ← valid_asciiLower d, h.1]
      simp only [List.all_cons, hv, ih t h.2]

theorem canonicalMIMEHeaderKey_of_valid (s : GoString)
    (h : s.all validHeaderFieldByte = true) : canonicalMIMEHeaderKey s = canonicalLoop true s := by
  have h1 : s.any (fun c => !validHeaderFieldByte c && c != ch ' ') = false := by
    rw [Bool.eq_false_iff]
    intro hc
    obtain ⟨c, hc1, hc2⟩ := List.any_eq_true.1 hc
    have := List.all_eq_true.1 h c hc1
    simp [this] at hc2
  have h2 : s.any (fun c => !validHeaderFieldByte c) = false := by
    rw [Bool.eq_false_iff]
    intro hc
    obtain ⟨c, hc1, hc2⟩ := List.any_eq_true.1 hc
    have := List.all_eq_true.1 h c hc1
    simp [this] at hc2
  simp [canonicalMIMEHeaderKey, h1, h2]

theorem canonicalMIMEHeaderKey_of_invalid (s : GoString)
    (h : s.all validHeaderFieldByte = false) : canonicalMIMEHeaderKey s = s := by
  unfold canonicalMIMEHeaderKey
  split_ifs with h1 h2
  · rfl
  · rfl
  · exfalso
    have : s.all validHeaderFieldByte = true := by
      rw [List.all_eq_true]
      intro c hc
      by_contra hv
      apply h2
      rw [List.any_eq_true]
      exact ⟨c, hc, by simpa using hv⟩
    rw [this] at h
    exact Bool.noConfusion h

theorem canonicalScan_cases (s t : GoString) (upper : Bool) :
    canonicalScan s upper t = canonicalMIMEHeaderKey s ∨
      (canonicalScan s upper t = s ∧
        (t.all validHeaderFieldByte = true → canonicalLoop upper t = t)) := by
  induction t generalizing upper with
  | nil => exact Or.inr ⟨rfl, fun _ => rfl⟩
  | cons c t ih =>
    unfold canonicalScan
    split_ifs with h1 h2 h3
    · refine Or.inr ⟨rfl, fun hv => ?_⟩
      simp only [List.all_cons, Bool.and_eq_true] at hv
      simp [hv.1] at h1
    · exact Or.inl rfl
    · exact Or.inl rfl
    · rcases ih (c == ch '-') with hl | ⟨hs, hloop⟩
      · exact Or.inl hl
      · refine Or.inr ⟨hs, fun hv => ?_⟩
        simp only [List.all_cons, Bool.and_eq_true] at hv
        have hb : canonicalByte upper c = c := by
          unfold canonicalByte
          rw [if_neg h2, if_neg h3]
        rw [canonicalLoop_cons, hb, hloop hv.2]

theorem Canonical_of_valid (s : GoString) (h : s.all validHeaderFieldByte = true) :
    CanonicalMIMEHeaderKey s = canonicalLoop true s := by
  unfold CanonicalMIMEHeaderKey
  rcases canonicalScan_cases s s true with hl | ⟨hs, hloop⟩
  · rw [hl, canonicalMIMEHeaderKey_of_valid s h]
  · rw [hs, hloop h]

theorem Canonical_of_invalid (s : GoString) (h : s.all validHeaderFieldByte = false) :
    CanonicalMIMEHeaderKey s = s := by
  unfold CanonicalMIMEHeaderKey
  rcases canonicalScan_cases s s true with hl | ⟨hs, _⟩
  · rw [hl, canonicalMIMEHeaderKey_of_invalid s h]
  · exact hs

theorem canonicalLoop_fixed (s : GoString) (upper : Bool) :
    canonicalLoop upper (canonicalLoop upper s) = canonicalLoop upper s ∧
      (canonicalLoop upper s).all validHeaderFieldByte = s.all validHeaderFieldByte := by
  induction s generalizing upper with
  | nil => exact ⟨rfl, rfl⟩
  | cons c s ih =>
    have hb : canonicalByte upper (canonicalByte upper c) = canonicalByte upper c := by
      cases upper
      · exact (canonicalByte_fixed c).1.2
      · exact (canonicalByte_fixed c).1.1
    have hv : validHeaderFieldByte (canonicalByte upper c) = validHeaderFieldByte c := by
      cases upper
      · exact (canonicalByte_fixed c).2.2
      · exact (canonicalByte_fixed c).2.1
    rw [canonicalLoop_cons, canonicalLoop_cons, hb]
    exact ⟨by rw [(ih _).1], by simp only [List.all_cons, hv, (ih _).2]⟩

theorem Canonical_idempotent (s : GoString) :
    CanonicalMIMEHeaderKey (CanonicalMIMEHeaderKey s) = CanonicalMIMEHeaderKey s := by
  cases h : s.all validHeaderFieldByte with
  | false => rw [Canonical_of_invalid s h, Canonical_of_invalid s h]
  | true =>
    rw [Canonical_of_valid s h]
    have hv : (canonicalLoop true s).all validHeaderFieldByte = true := by
      rw [(canonicalLoop_fixed s true).2, h]
    rw [Canonical_of_valid _ hv, (canonicalLoop_fixed s true).1]

theorem Canonical_same_case (s t : GoString) (hs : s.all validHeaderFieldByte = true)
    (h : s.map asciiLower = t.map asciiLower) :
    CanonicalMIMEHeaderKey s = CanonicalMIMEHeaderKey t := by
  have ht : t.all validHeaderFieldByte = true := by rw [← all_valid_same_case s t h, hs]
  rw [Canonical_of_valid s hs, Canonical_of_valid t ht, canonicalLoop_same_case s t true h]

theorem opts_keep_canonical_keys (env : Env) (o : Opt) (r r' : RequestOpts)
    (err : Option GoError)
    (hr : ∀ h, r.headers = some h → ∀ k ∈ h.entries.keys, CanonicalMIMEHeaderKey k = k)
    (hfr : Opt.fn env o r = .returned r' err) :
    ∀ h, r'.headers = some h → ∀ k ∈ h.entries.keys, CanonicalMIMEHeaderKey k = k := by
  cases err with
  | some e => rw [Opt.fn_error_unchanged env o r r' e hfr]; exact hr
  | none =>
    have hput : ∀ (m : StrMap) (x : GoString) (v : List GoString),
        (∀ k ∈ m.entries.keys, CanonicalMIMEHeaderKey k = k) → CanonicalMIMEHeaderKey x = x →
        ∀ k ∈ (m.put x v).entries.keys, CanonicalMIMEHeaderKey k = k := by
      intro m x v hm hx k hk
      rcases Entries.mem_keys_put m.1 x k v hk with h | h
      · rw [h]; exact hx
      · exact hm k h
    cases o <;>
      simp only [Opt.fn, WithBody_iff, WithParam_iff, WithHeader_iff, WithHttpClient_iff,
        WithJsonBody_iff] at hfr
    · subst hfr; exact hr
    · obtain ⟨buf, hd, _, hh, rfl⟩ := hfr
      intro h heq
      simp only [Option.some.injEq] at heq
      subst heq
      exact hput hd _ _ (hr hd hh) canonical_content_type
    · obtain ⟨p, hp, rfl⟩ := hfr
      exact hr
    · obtain ⟨hd, hh, rfl⟩ := hfr
      intro h heq
      simp only [Option.some.injEq] at heq
      subst heq
      exact hput hd _ _ (hr hd hh) (Canonical_idempotent _)
    · obtain ⟨c, _, rfl⟩ := hfr
      exact hr

theorem GoMap.mem_keys_of_lookup_some (m : GoMap) (k : GoString) (vs : List GoString)
    (h : GoMap.lookup m k = some vs) : ∃ s, m = some s ∧ k ∈ s.entries.keys := by
  cases m with
  | none => simp [GoMap.lookup] at h
  | some s => exact ⟨s, rfl, Entries.mem_keys_of_lookup s.1 k vs h⟩

/-! ## The claims -/

/-- C1. When the options before position `i` all return nil (leaving the accumulator `c`)
and the option at position `i` returns the error `e`, `Do` returns the nil response with
exactly `e`; the loop ends with the accumulator that option `i` left; the only events
are the calls of the options `0..i`: no later option is called, no request is
constructed and the client's send is never invoked. -/
theorem C1_first_failing_option (env : Env) (ctx : Option Context) (method url : GoString)
    (pre post : List OptionsFn) (o : OptionsFn) (c c' : RequestOpts) (e : GoError)
    (hpre : (applyOptions pre 0 (initialOpts method url)).1 = .completed c)
    (ho : o c = .returned c' (some e)) :
    Do env ctx method url (pre ++ o :: post) =
        ⟨.returned none (some e), (List.range (pre.length + 1)).map Event.option⟩ ∧
      (applyOptions (pre ++ o :: post) 0 (initialOpts method url)).1 = .failed c' e ∧
      (∀ cl req, Event.send cl req ∉ (Do env ctx method url (pre ++ o :: post)).trace) := by
  have hdo := Do_first_error env ctx method url pre post o c c' e hpre ho
  refine ⟨hdo, ?_, ?_⟩
  · rw [applyOptions_append pre (o :: post) 0 _ c hpre]
    simp [applyOptions, ho]
  · intro cl req
    rw [hdo]
    simp

/-- A concrete instance of C1: the second of three options fails, the third is never
called and nothing is sent. -/
theorem C1_first_failing_option_witness :
    Do sampleEnv (some ⟨1⟩) (str "GET") (str "/p")
        ([WithHeader (str "x") (str "y")] ++ WithHttpClient none ::
          [WithParam (str "a") (str "1")]) =
        ⟨.returned none (some ⟨"nil httpClient"⟩), [.option 0, .option 1]⟩ :=
  (C1_first_failing_option sampleEnv (some ⟨1⟩) (str "GET") (str "/p")
    [WithHeader (str "x") (str "y")] [WithParam (str "a") (str "1")] (WithHttpClient none)
    { initialOpts (str "GET") (str "/p") with
      headers := some (StrMap.empty.put (str "X") [str "y"]) }
    _ ⟨"nil httpClient"⟩ (by decide) rfl).1

/-- C2, as stated, fails for a key that occurs only in a pair of the URL's query which
`url.ParseQuery` rejects. With `WithParam("a", "1")` the URL query `u=1;v=2`, in
which the key `u` has the value `1;v=2`, is sent as `a=1`: the key `u` has lost its
value. In the same way the URL query `only=%zz`, which lists the key `only`, is sent
as `a=1`. -/
theorem C2_rejected_pair_counterexample :
    (Do sampleEnv (some ⟨1⟩) (str "GET") (str "/p?u=1;v=2")
        [WithParam (str "a") (str "1")]).trace =
      [.option 0, .newRequest (str "GET") (str "/p?u=1;v=2") none,
        .send DefaultClient
          ⟨⟨1⟩, str "GET", ⟨[], [], str "/p", str "a=1", []⟩, some StrMap.empty, none⟩] ∧
    queryValues (str "u=1;v=2") (str "u") = [str "1;v=2"] ∧
    queryValues (str "a=1") (str "u") = [] ∧
    (Do sampleEnv (some ⟨1⟩) (str "GET") (str "/p?only=%zz")
        [WithParam (str "a") (str "1")]).trace =
      [.option 0, .newRequest (str "GET") (str "/p?only=%zz") none,
        .send DefaultClient
          ⟨⟨1⟩, str "GET", ⟨[], [], str "/p", str "a=1", []⟩, some StrMap.empty, none⟩] ∧
    queryKeys (str "only=%zz") = [str "only"] ∧
    queryKeys (str "a=1") = [str "a"] := by
  decide

/-- C2, amended. When the options leave the accumulator `c`, the constructor accepts the
request and the target URL has a non-empty raw query, and `c.params` is not empty, the
request handed to the client has as raw query the encoding of the URL's `Query()`
mapping overwritten with `c.params`. In the pairs this raw query lists, every key of
`c.params` has exactly the values `c.params` gives it (one value for a key set by
`WithParam`; what the key had in the URL is dropped), and every other key has exactly
the values that the URL's `Query()` mapping holds for it: the values of the pairs that
`url.ParseQuery` accepts, and none when it rejects the pair or the whole query. -/
theorem C2_params_replace_url_query (env : Env) (ctx : Option Context) (method url : GoString)
    (options : List OptionsFn) (c : RequestOpts) (req0 : Request) (cl : Client)
    (hok : (applyOptions options 0 (initialOpts method url)).1 = .completed c)
    (hcl : c.httpClient = some cl)
    (hreq : NewRequestWithContext env ctx c.method c.url c.body = .ok req0)
    (hq : req0.URL.RawQuery ≠ [])
    (hp : GoMap.len c.params > 0) :
    (Do env ctx method url options).trace =
        (List.range options.length).map Event.option ++
          [.newRequest c.method c.url c.body, .send cl (prepare c req0)] ∧
      (prepare c req0).URL.RawQuery =
        Values.Encode (some (mergeParams req0.URL.Query c.params)) ∧
      (∀ k vs, GoMap.lookup c.params k = some vs →
        queryValues (prepare c req0).URL.RawQuery k = vs) ∧
      (∀ k, GoMap.lookup c.params k = none →
        queryValues (prepare c req0).URL.RawQuery k = req0.URL.Query.get k) := by
  have hraw : (prepare c req0).URL.RawQuery =
      Values.Encode (some (mergeParams req0.URL.Query c.params)) := by
    simp [prepare, hp, hq]
  refine ⟨?_, hraw, ?_, ?_⟩
  · rw [Do_completed env ctx method url options c hok, do_send env ctx c req0 cl hreq hcl]
  · intro k vs hk
    rw [hraw, queryValues_Encode]
    cases hpar : c.params with
    | none => rw [hpar] at hk; simp [GoMap.lookup] at hk
    | some p =>
      rw [hpar] at hk
      simp only [GoMap.lookup] at hk
      rw [get_mergeParams, hk]
  · intro k hk
    rw [hraw, queryValues_Encode]
    cases hpar : c.params with
    | none => rw [hpar] at hp; simp [GoMap.len] at hp
    | some p =>
      rw [hpar] at hk
      simp only [GoMap.lookup] at hk
      rw [get_mergeParams, hk]

/-- The example of C2: the URL query `a=0&b=2` with `WithParam("a", "1")` is sent as
`a=1&b=2`. -/
theorem C2_params_replace_url_query_witness :
    (Do sampleEnv (some ⟨1⟩) (str "GET") (str "/p?a=0&b=2")
        [WithParam (str "a") (str "1")]).trace =
      [.option 0, .newRequest (str "GET") (str "/p?a=0&b=2") none,
        .send DefaultClient
          ⟨⟨1⟩, str "GET", ⟨[], [], str "/p", str "a=1&b=2", []⟩, some StrMap.empty, none⟩] ∧
    queryValues (str "a=1&b=2") (str "a") = [str "1"] ∧
    queryValues (str "a=1&b=2") (str "b") = [str "2"] :=
  have h := C2_params_replace_url_query sampleEnv (some ⟨1⟩) (str "GET") (str "/p?a=0&b=2")
    [WithParam (str "a") (str "1")]
    { initialOpts (str "GET") (str "/p?a=0&b=2") with
      params := some (StrMap.empty.put (str "a") [str "1"]) }
    ⟨⟨1⟩, str "GET", ⟨[], [], str "/p", str "a=0&b=2", []⟩, some StrMap.empty, none⟩
    DefaultClient (by decide) rfl (by decide) (by decide) (by decide)
  ⟨h.1.trans (by decide), by decide, by decide⟩

/-- C3. When the options are among the five of the package, none of them a `WithParam`,
and all succeed, the request handed to the client is the request made by the
constructor with only its header map replaced: its URL, and so its raw query, is the
parsed target URL, unchanged. -/
theorem C3_no_params_keeps_query (env : Env) (ctx : Option Context) (method url : GoString)
    (os : List Opt) (c : RequestOpts) (req0 : Request)
    (hno : ∀ o ∈ os, o.isParam = false)
    (hok : (applyOptions (os.map (Opt.fn env)) 0 (initialOpts method url)).1 = .completed c)
    (hreq : NewRequestWithContext env ctx method url c.body = .ok req0) :
    ∃ cl sent,
      (Do env ctx method url (os.map (Opt.fn env))).trace =
          (List.range os.length).map Event.option ++
            [.newRequest method url c.body, .send cl sent] ∧
        sent = { req0 with Header := c.headers } ∧
        sent.URL.RawQuery = req0.URL.RawQuery ∧
        env.parseURL url = .ok sent.URL := by
  obtain ⟨hm, hu, cl, hcl⟩ := completed_opts_ready env method url os c hok
  have hparams : c.params = some StrMap.empty :=
    applyOptions_opts_invariant env (fun r => r.params = some StrMap.empty) os
      (fun o ho r r' hr hfr => (Opt.fn_params env o r r' hfr (hno o ho)).trans hr)
      0 (initialOpts method url) c rfl hok
  have hreq' : NewRequestWithContext env ctx c.method c.url c.body = .ok req0 := by
    rw [hm, hu]; exact hreq
  have hprep : prepare c req0 = { req0 with Header := c.headers } := by
    simp [prepare, hparams, GoMap.len, StrMap.len, StrMap.empty, StrMap.entries]
  have hparse : env.parseURL url = .ok req0.URL :=
    (NewRequestWithContext_ok env ctx method url c.body req0 hreq).1
  refine ⟨cl, { req0 with Header := c.headers }, ?_, rfl, rfl, hparse⟩
  rw [Do_completed env ctx method url _ c hok, do_send env ctx c req0 cl hreq' hcl, hprep,
    hm, hu]
  simp

/-- The example of C3: with no `WithParam` the raw query `x=1` is sent as `x=1`. -/
theorem C3_no_params_keeps_query_witness :
    ∃ cl sent,
      (Do sampleEnv (some ⟨1⟩) (str "GET") (str "/p?x=1")
        ([Opt.header (str "x") (str "y")].map (Opt.fn sampleEnv))).trace =
          (List.range 1).map Event.option ++
            [.newRequest (str "GET") (str "/p?x=1") none, .send cl sent] ∧
        sent = { (⟨⟨1⟩, str "GET", ⟨[], [], str "/p", str "x=1", []⟩, some StrMap.empty, none⟩ :
          Request) with Header := some (StrMap.empty.put (str "X") [str "y"]) } ∧
        sent.URL.RawQuery = str "x=1" ∧
        sampleEnv.parseURL (str "/p?x=1") = .ok sent.URL :=
  C3_no_params_keeps_query sampleEnv (some ⟨1⟩) (str "GET") (str "/p?x=1")
    [Opt.header (str "x") (str "y")]
    { initialOpts (str "GET") (str "/p?x=1") with
      headers := some (StrMap.empty.put (str "X") [str "y"]) }
    ⟨⟨1⟩, str "GET", ⟨[], [], str "/p", str "x=1", []⟩, some StrMap.empty, none⟩
    (by decide) (by decide) (by decide)

/-- C4. When the options leave the accumulator `c`, the constructor accepts the request
and the target URL has an empty raw query, and `c.params` is not empty, the request
handed to the client is the constructed one with its header map replaced and with the
raw query `c.params.Encode()`, and nothing else. -/
theorem C4_empty_query_gets_encoded_params (env : Env) (ctx : Option Context)
    (method url : GoString) (options : List OptionsFn) (c : RequestOpts) (req0 : Request)
    (cl : Client)
    (hok : (applyOptions options 0 (initialOpts method url)).1 = .completed c)
    (hcl : c.httpClient = some cl)
    (hreq : NewRequestWithContext env ctx c.method c.url c.body = .ok req0)
    (hq : req0.URL.RawQuery = [])
    (hp : GoMap.len c.params > 0) :
    (Do env ctx method url options).trace =
      (List.range options.length).map Event.option ++
        [.newRequest c.method c.url c.body,
          .send cl { req0 with Header := c.headers,
                               URL := { req0.URL with RawQuery := Values.Encode c.params } }] := by
  rw [Do_completed env ctx method url options c hok, do_send env ctx c req0 cl hreq hcl]
  simp [prepare, hp, hq]

/-- A concrete instance of C4: two parameters on a URL without query. -/
theorem C4_empty_query_gets_encoded_params_witness :
    (Do sampleEnv (some ⟨1⟩) (str "GET") (str "/p")
        [WithParam (str "b") (str "2 3"), WithParam (str "a") (str "1")]).trace =
      [.option 0, .option 1, .newRequest (str "GET") (str "/p") none,
        .send DefaultClient
          ⟨⟨1⟩, str "GET", ⟨[], [], str "/p", str "a=1&b=2+3", []⟩, some StrMap.empty, none⟩] :=
  (C4_empty_query_gets_encoded_params sampleEnv (some ⟨1⟩) (str "GET") (str "/p")
    [WithParam (str "b") (str "2 3"), WithParam (str "a") (str "1")]
    { initialOpts (str "GET") (str "/p") with
      params := some ((StrMap.empty.put (str "b") [str "2 3"]).put (str "a") [str "1"]) }
    ⟨⟨1⟩, str "GET", ⟨[], [], str "/p", [], []⟩, some StrMap.empty, none⟩
    DefaultClient (by decide) rfl (by decide) rfl (by decide)).trans (by decide)

/-- C5. When `Do` is called with options of the package among which `WithHeader(K, V1)`
is followed by `WithHeader(K, V2)`, no option after the second writes the header entry
of `K`, and all succeed, the request handed to the client has exactly one value for
`K`, namely `V2`. -/
theorem C5_header_set_twice (env : Env) (ctx : Option Context) (method url : GoString)
    (a b d : List Opt) (K V1 V2 : GoString) (c : RequestOpts) (req0 : Request)
    (hd : ∀ o ∈ d, o.touchesHeader K = false)
    (hok : (applyOptions ((a ++ Opt.header K V1 :: b ++ Opt.header K V2 :: d).map (Opt.fn env))
      0 (initialOpts method url)).1 = .completed c)
    (hreq : NewRequestWithContext env ctx method url c.body = .ok req0) :
    ∃ cl sent,
      (Do env ctx method url
          ((a ++ Opt.header K V1 :: b ++ Opt.header K V2 :: d).map (Opt.fn env))).trace =
        (List.range (a ++ Opt.header K V1 :: b ++ Opt.header K V2 :: d).length).map
            Event.option ++ [.newRequest method url c.body, .send cl sent] ∧
      Header.Values sent.Header K = [V2] := by
  obtain ⟨hm, hu, cl, hcl⟩ := completed_opts_ready env method url _ c hok
  have hreq' : NewRequestWithContext env ctx c.method c.url c.body = .ok req0 := by
    rw [hm, hu]; exact hreq
  have hvals : Header.Values c.headers K = [V2] := by
    have hok' := hok
    rw [List.map_append, List.map_cons] at hok'
    obtain ⟨c1, _, h2⟩ := applyOptions_split _ _ 0 _ c hok'
    simp only [applyOptions] at h2
    rcases ho : Opt.fn env (Opt.header K V2) c1 with ⟨r, _ | e⟩ | _
    · rw [ho] at h2
      exact applyOptions_opts_invariant env (fun r => Header.Values r.headers K = [V2]) d
        (fun o hmem r1 r2 hr hfr => (Opt.fn_headerValues env o r1 r2 K hfr (hd o hmem)).trans hr)
        _ r c (Opt.fn_header_sets env K V2 c1 r ho) h2
    · rw [ho] at h2; simp at h2
    · rw [ho] at h2; simp at h2
  refine ⟨cl, prepare c req0, ?_, ?_⟩
  · rw [Do_completed env ctx method url _ c hok, do_send env ctx c req0 cl hreq' hcl, hm, hu]
    simp
  · have : (prepare c req0).Header = c.headers := by
      unfold prepare
      simp only
      split_ifs <;> rfl
    rw [this, hvals]

/-- A concrete instance of C5: `x-id` is set to `1` and then to `2`, and a `WithBody`
follows; the request carries the single value `2` for `x-id`. -/
theorem C5_header_set_twice_witness :
    ∃ cl sent,
      (Do sampleEnv (some ⟨1⟩) (str "GET") (str "/p")
          (([] ++ Opt.header (str "x-id") (str "1") :: [] ++
            Opt.header (str "x-id") (str "2") :: [Opt.body none]).map
              (Opt.fn sampleEnv))).trace =
        (List.range ([] ++ Opt.header (str "x-id") (str "1") :: [] ++
            Opt.header (str "x-id") (str "2") :: [Opt.body none]).length).map
            Event.option ++ [.newRequest (str "GET") (str "/p") none, .send cl sent] ∧
      Header.Values sent.Header (str "x-id") = [str "2"] :=
  C5_header_set_twice sampleEnv (some ⟨1⟩) (str "GET") (str "/p") [] [] [Opt.body none]
    (str "x-id") (str "1") (str "2")
    { initialOpts (str "GET") (str "/p") with
      headers := some (StrMap.empty.put (str "X-Id") [str "2"]) }
    ⟨⟨1⟩, str "GET", ⟨[], [], str "/p", [], []⟩, some StrMap.empty, none⟩
    (by decide) (by decide) (by decide)

/-- C6. `WithHttpClient(c)` returns an error exactly when `c` is nil. With a nil client
it leaves the accumulator as it was, and `Do` (the options before it having returned
nil) returns that error after calling only the options up to it: no request is
constructed and nothing is sent. With a non-nil client it returns nil and the
accumulator's client becomes `c`, the other fields staying as they were. -/
theorem C6_nil_http_client (env : Env) (ctx : Option Context) (method url : GoString)
    (pre post : List OptionsFn) (c r : RequestOpts) (cl : Client)
    (hpre : (applyOptions pre 0 (initialOpts method url)).1 = .completed c) :
    (∀ hc : Option Client,
        (∃ r' e, WithHttpClient hc r = .returned r' (some e)) ↔ hc = none) ∧
      WithHttpClient none r = .returned r (some ⟨"nil httpClient"⟩) ∧
      Do env ctx method url (pre ++ WithHttpClient none :: post) =
        ⟨.returned none (some ⟨"nil httpClient"⟩),
          (List.range (pre.length + 1)).map Event.option⟩ ∧
      WithHttpClient (some cl) r = .returned { r with httpClient := some cl } none := by
  refine ⟨?_, rfl, ?_, rfl⟩
  · intro hc
    cases hc with
    | none => simp [WithHttpClient]
    | some x => simp [WithHttpClient]
  · exact Do_first_error env ctx method url pre post (WithHttpClient none) c c
      ⟨"nil httpClient"⟩ hpre rfl

/-- A concrete instance of C6: a nil client after one successful option. -/
theorem C6_nil_http_client_witness :
    Do sampleEnv (some ⟨1⟩) (str "GET") (str "/p")
        ([WithBody (some (.stream (str "b")))] ++ WithHttpClient none :: [WithHttpClient (some ⟨7⟩)]) =
      ⟨.returned none (some ⟨"nil httpClient"⟩), [.option 0, .option 1]⟩ :=
  (C6_nil_http_client sampleEnv (some ⟨1⟩) (str "GET") (str "/p")
    [WithBody (some (.stream (str "b")))] [WithHttpClient (some ⟨7⟩)]
    { initialOpts (str "GET") (str "/p") with body := some (.stream (str "b")) }
    zeroOpts ⟨7⟩ (by decide)).2.2.1

/-- C7, as stated, fails on the accumulator `RequestOpts{}`, whose header map is nil: the
value is encodable, and `WithJsonBody` panics instead of succeeding. -/
theorem C7_json_body_nil_headers_counterexample :
    sampleEnv.jsonEncode ⟨0⟩ = .ok (str "\x7b\"k\":\"v\"\x7d\n") ∧
      WithJsonBody sampleEnv ⟨0⟩ zeroOpts = .panicked := by
  decide

/-- C7, amended. For every value `v` the encoder accepts (writing `buf`) and every
accumulator whose header map is not nil, `WithJsonBody(v)` returns nil, `body` becomes
a buffer holding `buf`, the header map holds exactly the one value `application/json`
for `Content-Type`, every other header entry is as before, and the other fields are as
before. -/
theorem C7_json_body_sets_body_and_content_type (env : Env) (v : GoValue) (buf : GoString)
    (r : RequestOpts) (h : StrMap)
    (hv : env.jsonEncode v = .ok buf) (hh : r.headers = some h) :
    ∃ r', WithJsonBody env v r = .returned r' none ∧
      r' = { r with body := some (.stream buf),
                    headers := some (h.put (str "Content-Type") [str "application/json"]) } ∧
      Header.Values r'.headers (str "Content-Type") = [str "application/json"] ∧
      GoMap.lookup r'.headers (str "Content-Type") = some [str "application/json"] ∧
      (∀ k, k ≠ str "Content-Type" → GoMap.lookup r'.headers k = GoMap.lookup r.headers k) := by
  have hcanon : CanonicalMIMEHeaderKey (str "Content-Type") = str "Content-Type" := by decide
  refine ⟨_, ?_, rfl, ?_, ?_, ?_⟩
  · simp [WithJsonBody, hv, hh, Header.Set, GoMap.assign, hcanon]
  · simp [Header.Values, GoMap.get, hcanon, StrMap.get_put_same]
  · simp [GoMap.lookup, StrMap.lookup_put_same]
  · intro k hk
    simp [GoMap.lookup, hh, StrMap.lookup_put_ne _ _ _ _ hk]

/-- A concrete instance of C7: a `Content-Type` with two values and another header. -/
theorem C7_json_body_sets_body_and_content_type_witness :
    ∃ r', WithJsonBody sampleEnv ⟨0⟩
        { zeroOpts with headers := some ((StrMap.empty.put (str "Content-Type")
          [str "text/plain", str "text/html"]).put (str "X") [str "y"]) } = .returned r' none ∧
      r'.body = some (.stream (str "\x7b\"k\":\"v\"\x7d\n")) ∧
      GoMap.lookup r'.headers (str "Content-Type") = some [str "application/json"] ∧
      GoMap.lookup r'.headers (str "X") = some [str "y"] :=
  have ⟨r', h1, h2, _, h4, _⟩ := C7_json_body_sets_body_and_content_type sampleEnv ⟨0⟩
    (str "\x7b\"k\":\"v\"\x7d\n")
    { zeroOpts with headers := some ((StrMap.empty.put (str "Content-Type")
      [str "text/plain", str "text/html"]).put (str "X") [str "y"]) }
    ((StrMap.empty.put (str "Content-Type") [str "text/plain", str "text/html"]).put
      (str "X") [str "y"]) (by decide) rfl
  ⟨r', h1, by rw [h2], h4, by rw [h2]; decide⟩

/-- C8. `WithJsonBody(v)` returns an error exactly when the encoder refuses `v`; it then
returns the encoder's error and leaves the accumulator, so `body` and `headers`, as it
was; and `Do` (the options before it having returned nil) returns that error after
calling only the options up to it: no request is constructed and nothing is sent. -/
theorem C8_json_body_encoding_error (env : Env) (ctx : Option Context) (method url : GoString)
    (pre post : List OptionsFn) (c r : RequestOpts) (v : GoValue) (e : GoError)
    (he : env.jsonEncode v = .error e)
    (hpre : (applyOptions pre 0 (initialOpts method url)).1 = .completed c) :
    (∀ (w : GoValue) (r1 : RequestOpts),
        (∃ r' e', WithJsonBody env w r1 = .returned r' (some e')) ↔
          ∃ e', env.jsonEncode w = .error e') ∧
      WithJsonBody env v r = .returned r (some e) ∧
      Do env ctx method url (pre ++ WithJsonBody env v :: post) =
        ⟨.returned none (some e), (List.range (pre.length + 1)).map Event.option⟩ := by
  refine ⟨?_, by simp [WithJsonBody, he], ?_⟩
  · intro w r1
    constructor
    · rintro ⟨r', e', h⟩
      cases hw : env.jsonEncode w with
      | error e2 => exact ⟨e2, rfl⟩
      | ok b =>
        exfalso
        simp only [WithJsonBody, hw] at h
        split at h <;> simp at h
    · rintro ⟨e', hw⟩
      exact ⟨r1, e', by simp [WithJsonBody, hw]⟩
  · exact Do_first_error env ctx method url pre post (WithJsonBody env v) c c e hpre
      (by simp [WithJsonBody, he])

/-- A concrete instance of C8: a value the encoder refuses, after a header option. -/
theorem C8_json_body_encoding_error_witness :
    WithJsonBody sampleEnv ⟨5⟩ zeroOpts =
        .returned zeroOpts (some ⟨"json: unsupported type"⟩) ∧
      Do sampleEnv (some ⟨1⟩) (str "POST") (str "/p")
          ([WithHeader (str "x") (str "y")] ++ WithJsonBody sampleEnv ⟨5⟩ ::
            [WithBody none]) =
        ⟨.returned none (some ⟨"json: unsupported type"⟩), [.option 0, .option 1]⟩ :=
  (C8_json_body_encoding_error sampleEnv (some ⟨1⟩) (str "POST") (str "/p")
    [WithHeader (str "x") (str "y")] [WithBody none]
    { initialOpts (str "POST") (str "/p") with
      headers := some (StrMap.empty.put (str "X") [str "y"]) }
    zeroOpts ⟨5⟩ ⟨"json: unsupported type"⟩ (by decide) (by decide)).2

/-- C10. For every valid method, every URL that parses (to `u`) and every non-nil context,
`Do` with no option constructs one request and hands it to `http.DefaultClient`: its method
is the given method, its URL is `u` (so its raw query is that of `u`), its body is
absent and its header map is empty; `Do` returns what the client returns. -/
theorem C10_no_options (env : Env) (cx : Context) (method url : GoString) (u : URL)
    (hm : validMethod method = true) (hu : env.parseURL url = .ok u) :
    Do env (some cx) method url [] =
      ⟨.returned
          (env.clientDo DefaultClient ⟨cx, method, u, some StrMap.empty, none⟩).1
          (env.clientDo DefaultClient ⟨cx, method, u, some StrMap.empty, none⟩).2,
        [.newRequest method url none,
          .send DefaultClient ⟨cx, method, u, some StrMap.empty, none⟩]⟩ := by
  have hne : method ≠ [] := by
    intro h
    rw [h] at hm
    simp [validMethod] at hm
  have hreq : NewRequestWithContext env (some cx) method url none =
      .ok ⟨cx, method, u, some StrMap.empty, none⟩ := by
    simp [NewRequestWithContext, hne, hm, hu]
  have hdo := Do_completed env (some cx) method url [] (initialOpts method url) rfl
  rw [hdo, do_send env (some cx) (initialOpts method url) _ DefaultClient hreq rfl]
  simp [prepare, initialOpts, GoMap.len, StrMap.len, StrMap.empty, StrMap.entries]

/-- A concrete instance of C10: a GET of `/p?x=1` with no option. -/
theorem C10_no_options_witness :
    Do sampleEnv (some ⟨1⟩) (str "GET") (str "/p?x=1") [] =
      ⟨.returned (some ⟨200, []⟩) none,
        [.newRequest (str "GET") (str "/p?x=1") none,
          .send DefaultClient
            ⟨⟨1⟩, str "GET", ⟨[], [], str "/p", str "x=1", []⟩, some StrMap.empty, none⟩]⟩ :=
  C10_no_options sampleEnv ⟨1⟩ (str "GET") (str "/p?x=1") ⟨[], [], str "/p", str "x=1", []⟩
    (by decide) (by decide)

/-- C11. When every option returns nil (leaving the accumulator `c`, whose client is
`cl`) and the constructor makes the request, `Do` calls the client's send exactly
once, on the prepared request, and returns exactly the pair the client returned,
response and error as they are. -/
theorem C11_transport_result_verbatim (env : Env) (ctx : Option Context) (method url : GoString)
    (options : List OptionsFn) (c : RequestOpts) (req0 : Request) (cl : Client)
    (hok : (applyOptions options 0 (initialOpts method url)).1 = .completed c)
    (hcl : c.httpClient = some cl)
    (hreq : NewRequestWithContext env ctx c.method c.url c.body = .ok req0) :
    (Do env ctx method url options).result =
        .returned (env.clientDo cl (prepare c req0)).1 (env.clientDo cl (prepare c req0)).2 ∧
      (Do env ctx method url options).trace =
        (List.range options.length).map Event.option ++
          [.newRequest c.method c.url c.body, .send cl (prepare c req0)] ∧
      (Do env ctx method url options).trace.filter Event.isSend =
        [.send cl (prepare c req0)] := by
  rw [Do_completed env ctx method url options c hok, do_send env ctx c req0 cl hreq hcl]
  refine ⟨rfl, rfl, ?_⟩
  simp [List.filter_append, Event.isSend, List.filter_map, Function.comp_def]

/-- A concrete instance of C11: the client of `WithHttpClient` fails with a transport
error, which `Do` returns as it is after one send. -/
theorem C11_transport_result_verbatim_witness :
    (Do downEnv (some ⟨1⟩) (str "GET") (str "/p") [WithHttpClient (some ⟨7⟩)]).result =
        .returned none (some ⟨"dial tcp: connection refused"⟩) ∧
      (Do downEnv (some ⟨1⟩) (str "GET") (str "/p") [WithHttpClient (some ⟨7⟩)]).trace.filter
          Event.isSend =
        [.send ⟨7⟩ ⟨⟨1⟩, str "GET", ⟨[], [], str "/p", [], []⟩, some StrMap.empty, none⟩] :=
  have h := C11_transport_result_verbatim downEnv (some ⟨1⟩) (str "GET") (str "/p")
    [WithHttpClient (some ⟨7⟩)]
    { initialOpts (str "GET") (str "/p") with httpClient := some ⟨7⟩ }
    ⟨⟨1⟩, str "GET", ⟨[], [], str "/p", [], []⟩, some StrMap.empty, none⟩ ⟨7⟩
    (by decide) rfl (by decide)
  ⟨h.1.trans (by decide), h.2.2.trans (by decide)⟩

/-- C12. When every option returns nil (leaving the accumulator `c`) and the constructor
refuses the request with the error `e`, `Do` returns the nil response with `e` and the
client's send is never called. The constructor refuses a method that is not valid
and a URL that does not parse. -/
theorem C12_construction_error (env : Env) (ctx : Option Context) (method url : GoString)
    (options : List OptionsFn) (c : RequestOpts) (e : GoError)
    (hok : (applyOptions options 0 (initialOpts method url)).1 = .completed c)
    (hreq : NewRequestWithContext env ctx c.method c.url c.body = .error e) :
    Do env ctx method url options =
        ⟨.returned none (some e),
          (List.range options.length).map Event.option ++
            [.newRequest c.method c.url c.body]⟩ ∧
      (Do env ctx method url options).trace.filter Event.isSend = [] ∧
      (∀ (cx : Context) (m u : GoString) (b : Option Reader) (e' : GoError),
        validMethod m = true → env.parseURL u = .error e' →
          NewRequestWithContext env (some cx) m u b = .error e') ∧
      (∀ (cx : Option Context) (m u : GoString) (b : Option Reader),
        m ≠ [] → validMethod m = false →
          NewRequestWithContext env cx m u b =
            .error (env.errorf "net/http: invalid method %q" m)) := by
  have hdo := Do_construction_error env ctx method url options c e hok hreq
  refine ⟨hdo, ?_, ?_, ?_⟩
  · rw [hdo]
    simp [List.filter_append, Event.isSend, List.filter_map, Function.comp_def]
  · intro cx m u b e' hm hu
    have hne : m ≠ [] := by
      intro h; rw [h] at hm; simp [validMethod] at hm
    simp [NewRequestWithContext, hne, hm, hu]
  · intro cx m u b hne hm
    simp [NewRequestWithContext, hne, hm]

/-- A concrete instance of C12: the empty URL does not parse in `sampleEnv`. -/
theorem C12_construction_error_witness :
    Do sampleEnv (some ⟨1⟩) (str "GET") [] [WithHeader (str "x") (str "y")] =
      ⟨.returned none (some ⟨"parse: empty url"⟩),
        [.option 0, .newRequest (str "GET") [] none]⟩ :=
  (C12_construction_error sampleEnv (some ⟨1⟩) (str "GET") [] [WithHeader (str "x") (str "y")]
    { initialOpts (str "GET") [] with headers := some (StrMap.empty.put (str "X") [str "y"]) }
    ⟨"parse: empty url"⟩ (by decide) (by decide)).1.trans (by decide)

/-- C13. Each option that returns nil changes only its own fields: `WithBody` only `body`,
`WithParam` only `params`, `WithHeader` only `headers`, `WithHttpClient` only
`httpClient`, `WithJsonBody` only `body` and `headers`. So, after any list of the
package's options, whether the loop ran through or stopped at an error, `method` and
`url` are those given to `Do`. -/
theorem C13_options_change_own_fields (env : Env) (method url : GoString) (os : List Opt) :
    (∀ b r r', WithBody b r = .returned r' none → r' = { r with body := r'.body }) ∧
      (∀ k v r r', WithParam k v r = .returned r' none → r' = { r with params := r'.params }) ∧
      (∀ k v r r', WithHeader k v r = .returned r' none →
        r' = { r with headers := r'.headers }) ∧
      (∀ cl r r', WithHttpClient cl r = .returned r' none →
        r' = { r with httpClient := r'.httpClient }) ∧
      (∀ v r r', WithJsonBody env v r = .returned r' none →
        r' = { r with body := r'.body, headers := r'.headers }) ∧
      (∀ c, ((applyOptions (os.map (Opt.fn env)) 0 (initialOpts method url)).1).acc = some c →
        c.method = method ∧ c.url = url) := by
  refine ⟨?_, ?_, ?_, ?_, ?_, ?_⟩
  · intro b r r' h
    simp only [WithBody, OptResult.returned.injEq] at h
    rw [← h.1]
  · intro k v r r' h
    simp only [WithParam] at h
    split at h
    · simp at h
    · simp only [OptResult.returned.injEq] at h; rw [← h.1]
  · intro k v r r' h
    simp only [WithHeader] at h
    split at h
    · simp at h
    · simp only [OptResult.returned.injEq] at h; rw [← h.1]
  · intro cl r r' h
    simp only [WithHttpClient] at h
    split at h
    · simp at h
    · simp only [OptResult.returned.injEq] at h; rw [← h.1]
  · intro v r r' h
    simp only [WithJsonBody] at h
    split at h
    · simp at h
    · split at h
      · simp at h
      · simp only [OptResult.returned.injEq] at h; rw [← h.1]
  · intro c hc
    exact applyOptions_opts_acc env (fun r => r.method = method ∧ r.url = url) os
      (fun o _ r r' err hr hfr =>
        ⟨(Opt.fn_frame_any env o r r' err hfr).1.trans hr.1,
          (Opt.fn_frame_any env o r r' err hfr).2.trans hr.2⟩)
      0 (initialOpts method url) c ⟨rfl, rfl⟩ hc

/-- C14, as stated, fails for the two pairs of kinds that write the same place. From the
accumulator of `Do`, `WithBody` then `WithJsonBody` leaves the JSON buffer as body and
the other order leaves the given body; `WithHeader("content-type", ...)` then
`WithJsonBody` leaves `application/json` and the other order leaves `text/plain`. -/
theorem C14_same_place_counterexample :
    andThen (WithBody (some (.stream (str "b")))) (WithJsonBody sampleEnv ⟨0⟩)
        (initialOpts (str "POST") (str "/p")) =
      .returned { initialOpts (str "POST") (str "/p") with
        body := some (.stream (str "\x7b\"k\":\"v\"\x7d\n")),
        headers := some (StrMap.empty.put (str "Content-Type") [str "application/json"]) }
        none ∧
    andThen (WithJsonBody sampleEnv ⟨0⟩) (WithBody (some (.stream (str "b"))))
        (initialOpts (str "POST") (str "/p")) =
      .returned { initialOpts (str "POST") (str "/p") with
        body := some (.stream (str "b")),
        headers := some (StrMap.empty.put (str "Content-Type") [str "application/json"]) }
        none ∧
    andThen (WithHeader (str "content-type") (str "text/plain")) (WithJsonBody sampleEnv ⟨0⟩)
        (initialOpts (str "POST") (str "/p")) =
      .returned { initialOpts (str "POST") (str "/p") with
        body := some (.stream (str "\x7b\"k\":\"v\"\x7d\n")),
        headers := some (StrMap.empty.put (str "Content-Type") [str "application/json"]) }
        none ∧
    andThen (WithJsonBody sampleEnv ⟨0⟩) (WithHeader (str "content-type") (str "text/plain"))
        (initialOpts (str "POST") (str "/p")) =
      .returned { initialOpts (str "POST") (str "/p") with
        body := some (.stream (str "\x7b\"k\":\"v\"\x7d\n")),
        headers := some (StrMap.empty.put (str "Content-Type") [str "text/plain"]) }
        none := by
  decide

/-- C14, amended. For every accumulator and every two options of the package of two
different kinds, other than `WithBody` with `WithJsonBody` and other than
`WithJsonBody` with a `WithHeader` whose key has the canonical form `Content-Type`:
when applying the first and then the second succeeds and leaves `r'`, applying them in
the other order succeeds too and leaves the same `r'`. -/
theorem C14_different_kinds_commute (env : Env) (o1 o2 : Opt) (r r' : RequestOpts)
    (hk : o1.kind ≠ o2.kind) (hc : Opt.conflict o1 o2 = false)
    (h : andThen (Opt.fn env o1) (Opt.fn env o2) r = .returned r' none) :
    andThen (Opt.fn env o2) (Opt.fn env o1) r = .returned r' none :=
  opts_commute env o1 o2 r r' hk hc h

/-- A concrete instance of C14: a header other than `Content-Type` and a JSON body. -/
theorem C14_different_kinds_commute_witness :
    andThen (Opt.fn sampleEnv (.jsonBody ⟨0⟩)) (Opt.fn sampleEnv (.header (str "x") (str "y")))
        (initialOpts (str "POST") (str "/p")) =
      .returned { initialOpts (str "POST") (str "/p") with
        body := some (.stream (str "\x7b\"k\":\"v\"\x7d\n")),
        headers := some ((StrMap.empty.put (str "X") [str "y"]).put (str "Content-Type")
          [str "application/json"]) } none :=
  C14_different_kinds_commute sampleEnv (.header (str "x") (str "y")) (.jsonBody ⟨0⟩)
    (initialOpts (str "POST") (str "/p")) _ (by decide) (by decide) (by decide)

/-- C15. For every accumulator and every two options of the package of the same kind
(and, for `WithParam` and `WithHeader`, with the same key): when applying the first and
then the second succeeds and leaves `r'`, applying the second alone succeeds and
leaves the same `r'`. So every option is idempotent: applied twice it leaves what it
leaves applied once. -/
theorem C15_later_option_overrides (env : Env) (o1 o2 : Opt) (r r' : RequestOpts)
    (hs : Opt.sameSlot o1 o2 = true)
    (h : andThen (Opt.fn env o1) (Opt.fn env o2) r = .returned r' none) :
    Opt.fn env o2 r = .returned r' none ∧
      (∀ (o : Opt) (s s' : RequestOpts), Opt.fn env o s = .returned s' none →
        andThen (Opt.fn env o) (Opt.fn env o) s = .returned s' none) := by
  refine ⟨opts_override env o1 o2 r r' hs h, ?_⟩
  intro o s s' hos
  rw [andThen_iff]
  exact ⟨s', hos, opts_idempotent env o s s' hos⟩

/-- A concrete instance of C15: the parameter `a` set to `1` and then to `2`. -/
theorem C15_later_option_overrides_witness :
    Opt.fn sampleEnv (.param (str "a") (str "2")) (initialOpts (str "GET") (str "/p")) =
      .returned { initialOpts (str "GET") (str "/p") with
        params := some (StrMap.empty.put (str "a") [str "2"]) } none :=
  (C15_later_option_overrides sampleEnv (.param (str "a") (str "1")) (.param (str "a") (str "2"))
    (initialOpts (str "GET") (str "/p")) _ (by decide) (by decide)).1

/-- C16. The accumulator that `Do` creates has `headers` and `params` present and empty.
Whatever list of the package's options is applied to it, no option panics, and the
accumulator the loop ends with (run through, or stopped at an error) has `headers`
and `params` present, each key occurring once and having exactly one value. -/
theorem C16_maps_present_single_valued (env : Env) (method url : GoString) (os : List Opt) :
    (initialOpts method url).headers = some StrMap.empty ∧
      (initialOpts method url).params = some StrMap.empty ∧
      (applyOptions (os.map (Opt.fn env)) 0 (initialOpts method url)).1 ≠ .panicked ∧
      (∀ c, ((applyOptions (os.map (Opt.fn env)) 0 (initialOpts method url)).1).acc = some c →
        GoMap.singleValued c.headers ∧ GoMap.singleValued c.params ∧
        (∀ h, c.headers = some h → h.entries.keys.Nodup) ∧
        (∀ p, c.params = some p → p.entries.keys.Nodup)) := by
  have hinit : GoMap.singleValued (initialOpts method url).headers ∧
      GoMap.singleValued (initialOpts method url).params :=
    ⟨singleValued_empty, singleValued_empty⟩
  refine ⟨rfl, rfl, ?_, ?_⟩
  · exact applyOptions_opts_no_panic env _ os
      (fun o _ r r' err hr hfr => opts_keep_singleValued env o r r' err hr hfr)
      (fun o _ r hr => opts_no_panic env o r hr) 0 _ hinit
  · intro c hc
    have := applyOptions_opts_acc env _ os
      (fun o _ r r' err hr hfr => opts_keep_singleValued env o r r' err hr hfr)
      0 _ c hinit hc
    exact ⟨this.1, this.2, fun h _ => h.keys_nodup, fun p _ => p.keys_nodup⟩

/-- C17, as stated, fails when the transport itself returns both a response and an error,
as `http.Client.Do` does when `CheckRedirect` fails: `Do` returns both. -/
theorem C17_both_response_and_error_counterexample :
    (Do redirectEnv (some ⟨1⟩) (str "GET") (str "/p") []).result =
      .returned (some ⟨302, []⟩) (some ⟨"redirect refused by CheckRedirect"⟩) := by
  decide

/-- C17, amended. For every call of `Do` that returns: either the transport is not
reached and the result is an error with no response, or the transport is reached once
and the result is the transport's own pair. So when the transport's answer to this
call is a response with no error or an error with no response, the result of `Do` is
one or the other, never both and never neither. -/
theorem C17_response_or_error (env : Env) (ctx : Option Context) (method url : GoString)
    (options : List OptionsFn) (resp : Option Response) (err : Option GoError)
    (hret : (Do env ctx method url options).result = .returned resp err)
    (hT : ∀ cl req, Event.send cl req ∈ (Do env ctx method url options).trace →
      ((env.clientDo cl req).1.isSome = true ∧ (env.clientDo cl req).2 = none) ∨
        ((env.clientDo cl req).1 = none ∧ (env.clientDo cl req).2.isSome = true)) :
    ((resp.isSome = true ∧ err = none) ∨ (resp = none ∧ err.isSome = true)) ∧
      ((∃ e, resp = none ∧ err = some e ∧
          (Do env ctx method url options).trace.filter Event.isSend = []) ∨
        (∃ cl req, (Do env ctx method url options).trace.filter Event.isSend = [.send cl req] ∧
          resp = (env.clientDo cl req).1 ∧ err = (env.clientDo cl req).2)) := by
  rcases Do_outcome_cases env ctx method url options with hp | ⟨e, he, hs⟩ | ⟨cl, req, hs, hr⟩
  · rw [hp] at hret
    exact Result.noConfusion hret
  · rw [he] at hret
    simp only [Result.returned.injEq] at hret
    obtain ⟨h1, h2⟩ := hret
    subst h1 h2
    exact ⟨Or.inr ⟨rfl, rfl⟩, Or.inl ⟨e, rfl, rfl, hs⟩⟩
  · rw [hr] at hret
    simp only [Result.returned.injEq] at hret
    obtain ⟨h1, h2⟩ := hret
    have hmem : Event.send cl req ∈ (Do env ctx method url options).trace := by
      have : Event.send cl req ∈ (Do env ctx method url options).trace.filter Event.isSend := by
        rw [hs]
        exact List.mem_singleton_self _
      exact (List.mem_filter.1 this).1
    have hshape := hT cl req hmem
    rw [h1, h2] at hshape
    exact ⟨hshape, Or.inr ⟨cl, req, hs, h1.symm, h2.symm⟩⟩

/-- A concrete instance of C17: the clients of `loopEnv` answer `/loop` with both a
response and an error, but the call is for `/p`, which they answer with a response and
no error; so does `Do`. -/
theorem C17_response_or_error_witness :
    (Do loopEnv (some ⟨1⟩) (str "GET") (str "/p") []).result =
        .returned (some ⟨200, []⟩) none ∧
      (loopEnv.clientDo DefaultClient
        ⟨⟨1⟩, str "GET", ⟨[], [], str "/loop", [], []⟩, some StrMap.empty, none⟩) =
        (some ⟨302, []⟩, some ⟨"stopped after 10 redirects"⟩) ∧
      ((some (⟨200, []⟩ : Response)).isSome = true ∧ (none : Option GoError) = none ∨
        (some (⟨200, []⟩ : Response)) = none ∧ (none : Option GoError).isSome = true) :=
  ⟨by decide, by decide,
    (C17_response_or_error loopEnv (some ⟨1⟩) (str "GET") (str "/p") []
      (some ⟨200, []⟩) none (by decide)
      (fun cl req hmem => by
        have ht : (Do loopEnv (some ⟨1⟩) (str "GET") (str "/p") []).trace =
            [.newRequest (str "GET") (str "/p") none,
              .send DefaultClient
                ⟨⟨1⟩, str "GET", ⟨[], [], str "/p", [], []⟩, some StrMap.empty, none⟩] := by
          decide
        rw [ht] at hmem
        simp only [List.mem_cons, reduceCtorEq, Event.send.injEq, List.mem_singleton,
          false_or, List.not_mem_nil, or_false] at hmem
        obtain ⟨rfl, rfl⟩ := hmem
        exact Or.inl ⟨by decide, by decide⟩)).1⟩

/-- C18, as stated, fails for keys that hold a byte that is not a header-token byte, such
as a space: `http.Header.Set` leaves such keys as they are. `a b` and `A B` differ only
in letter case, and `WithHeader("a b", "1")` followed by `WithHeader("A B", "2")` leaves
two entries. -/
theorem C18_keys_with_space_counterexample :
    (str "a b").map asciiLower = (str "A B").map asciiLower ∧
      andThen (WithHeader (str "a b") (str "1")) (WithHeader (str "A B") (str "2"))
          (initialOpts (str "GET") (str "/p")) =
        .returned { initialOpts (str "GET") (str "/p") with
          headers := some ((StrMap.empty.put (str "a b") [str "1"]).put (str "A B") [str "2"]) }
          none ∧
      ((StrMap.empty.put (str "a b") [str "1"]).put (str "A B") [str "2"]).entries =
        [(str "A B", [str "2"]), (str "a b", [str "1"])] := by
  decide

/-- C18, amended. `WithHeader(K, V)` stores `[V]` under `CanonicalMIMEHeaderKey(K)`. For
every two keys `K1`, `K2` made of header-token bytes that differ only in letter case,
the canonical forms are equal, so `WithHeader(K1, V1)` followed by `WithHeader(K2, V2)`
leaves what `WithHeader(K2, V2)` alone leaves, with the single value `V2` for that
name. In an accumulator made by `Do` and the package's options there is no entry under
a key `K` that is not its own canonical form, and every entry whose key differs from a
token key `K` only in letter case is the one under `CanonicalMIMEHeaderKey(K)`. -/
theorem C18_header_canonical_key (env : Env) (method url : GoString) (os : List Opt)
    (K1 K2 V1 V2 : GoString) (r r' : RequestOpts)
    (ht : K1.all validHeaderFieldByte = true)
    (hcase : K1.map asciiLower = K2.map asciiLower)
    (h : andThen (WithHeader K1 V1) (WithHeader K2 V2) r = .returned r' none) :
    (∀ K V s s', WithHeader K V s = .returned s' none →
        GoMap.lookup s'.headers (CanonicalMIMEHeaderKey K) = some [V]) ∧
      CanonicalMIMEHeaderKey K1 = CanonicalMIMEHeaderKey K2 ∧
      WithHeader K2 V2 r = .returned r' none ∧
      Header.Values r'.headers K1 = [V2] ∧ Header.Values r'.headers K2 = [V2] ∧
      (∀ c, ((applyOptions (os.map (Opt.fn env)) 0 (initialOpts method url)).1).acc = some c →
        (∀ K, CanonicalMIMEHeaderKey K ≠ K → GoMap.lookup c.headers K = none) ∧
        (∀ K k vs, K.all validHeaderFieldByte = true → GoMap.lookup c.headers k = some vs →
          k.map asciiLower = K.map asciiLower → k = CanonicalMIMEHeaderKey K)) := by
  have hcanon : CanonicalMIMEHeaderKey K1 = CanonicalMIMEHeaderKey K2 :=
    Canonical_same_case K1 K2 ht hcase
  have hstore : ∀ K V s s', WithHeader K V s = .returned s' none →
      GoMap.lookup s'.headers (CanonicalMIMEHeaderKey K) = some [V] := by
    intro K V s s' hs
    obtain ⟨hd, _, rfl⟩ := (WithHeader_iff K V s s').1 hs
    simp [GoMap.lookup, StrMap.lookup_put_same]
  have h2 : WithHeader K2 V2 r = .returned r' none := by
    rw [andThen_iff] at h
    obtain ⟨r1, h1, h2⟩ := h
    obtain ⟨hd, hh, rfl⟩ := (WithHeader_iff K1 V1 r r1).1 h1
    obtain ⟨hd', hh', rfl⟩ := (WithHeader_iff K2 V2 _ r').1 h2
    simp only [Option.some.injEq] at hh'
    subst hh'
    rw [WithHeader_iff]
    exact ⟨hd, hh, by simp [hcanon, StrMap.put_put_same]⟩
  have hv2 : Header.Values r'.headers K2 = [V2] := by
    have := hstore K2 V2 r r' h2
    obtain ⟨hd, _, rfl⟩ := (WithHeader_iff K2 V2 r r').1 h2
    simp [Header.Values, GoMap.get, StrMap.get_put_same]
  refine ⟨hstore, hcanon, h2, ?_, hv2, ?_⟩
  · have : Header.Values r'.headers K1 = Header.Values r'.headers K2 := by
      simp [Header.Values, hcanon]
    rw [this, hv2]
  · intro c hc
    have hkeys := applyOptions_opts_acc env
      (fun r => ∀ h, r.headers = some h → ∀ k ∈ h.entries.keys, CanonicalMIMEHeaderKey k = k) os
      (fun o _ r r' err hr hfr => opts_keep_canonical_keys env o r r' err hr hfr)
      0 (initialOpts method url) c
      (by
        intro h hh k hk
        simp only [initialOpts, Option.some.injEq] at hh
        subst hh
        simp [StrMap.empty, StrMap.entries, Entries.keys] at hk)
      hc
    constructor
    · intro K hK
      cases hl : GoMap.lookup c.headers K with
      | none => rfl
      | some vs =>
        obtain ⟨s, hs, hmem⟩ := GoMap.mem_keys_of_lookup_some c.headers K vs hl
        exact absurd (hkeys s hs K hmem) hK
    · intro K k vs hK hl hkK
      obtain ⟨s, hs, hmem⟩ := GoMap.mem_keys_of_lookup_some c.headers k vs hl
      have hfix := hkeys s hs k hmem
      have hk : k.all validHeaderFieldByte = true := by
        rw [all_valid_same_case k K hkK, hK]
      rw [← hfix]
      exact Canonical_same_case k K hk hkK

/-- A concrete instance of C18: `x-request-id` and `X-REQUEST-ID`. -/
theorem C18_header_canonical_key_witness :
    CanonicalMIMEHeaderKey (str "x-request-id") = CanonicalMIMEHeaderKey (str "X-REQUEST-ID") ∧
      WithHeader (str "X-REQUEST-ID") (str "2") (initialOpts (str "GET") (str "/p")) =
        .returned { initialOpts (str "GET") (str "/p") with
          headers := some (StrMap.empty.put (str "X-Request-Id") [str "2"]) } none :=
  have h := C18_header_canonical_key sampleEnv (str "GET") (str "/p") []
    (str "x-request-id") (str "X-REQUEST-ID") (str "1") (str "2")
    (initialOpts (str "GET") (str "/p"))
    { initialOpts (str "GET") (str "/p") with
      headers := some (StrMap.empty.put (str "X-Request-Id") [str "2"]) }
    (by decide) (by decide) (by decide)
  ⟨h.2.1, h.2.2.1⟩


/-- C19. For every value `v` the encoder accepts and every body `b`: on an accumulator
whose header map is present, `WithJsonBody(v)` followed by `WithBody(b)` leaves `body`
equal to `b` and `Content-Type: application/json` in the headers; and `Do` with these
two options sends a request whose body is `b` and whose `Content-Type` is
`application/json`. -/
theorem C19_body_after_json_body (env : Env) (ctx : Option Context) (method url : GoString)
    (v : GoValue) (buf : GoString) (b : Option Reader) (req0 : Request)
    (hv : env.jsonEncode v = .ok buf)
    (hreq : NewRequestWithContext env ctx method url b = .ok req0) :
    (∀ r h, r.headers = some h →
        andThen (WithJsonBody env v) (WithBody b) r =
          .returned { r with
            body := b,
            headers := some (h.put (str "Content-Type") [str "application/json"]) } none) ∧
      (Do env ctx method url [WithJsonBody env v, WithBody b]).trace =
        [.option 0, .option 1, .newRequest method url b,
          .send DefaultClient { req0 with
            Header := some (StrMap.empty.put (str "Content-Type") [str "application/json"]) }] ∧
      req0.Body = b ∧
      Header.Values (some (StrMap.empty.put (str "Content-Type") [str "application/json"]))
        (str "Content-Type") = [str "application/json"] := by
  refine ⟨?_, ?_, ?_, ?_⟩
  · intro r h hh
    rw [andThen_iff]
    exact ⟨_, (WithJsonBody_iff env v r _).2 ⟨buf, h, hv, hh, rfl⟩, by simp [WithBody]⟩
  · have hloop : (applyOptions [WithJsonBody env v, WithBody b] 0 (initialOpts method url)).1 =
        .completed { initialOpts method url with
          body := b,
          headers := some (StrMap.empty.put (str "Content-Type") [str "application/json"]) } := by
      simp [applyOptions, WithJsonBody, hv, initialOpts, Header.Set, GoMap.assign,
        canonical_content_type, WithBody]
    rw [Do_completed env ctx method url _ _ hloop, do_send env ctx _ req0 DefaultClient hreq rfl]
    have hr : List.range 2 = [0, 1] := rfl
    simp [prepare, initialOpts, GoMap.len, StrMap.len, StrMap.empty, StrMap.entries, hr]
  · exact (NewRequestWithContext_ok env ctx method url b req0 hreq).2.1
  · simp [Header.Values, GoMap.get, canonical_content_type, StrMap.get_put_same]

/-- A concrete instance of C19: a plain body after a JSON body. -/
theorem C19_body_after_json_body_witness :
    (Do sampleEnv (some ⟨1⟩) (str "POST") (str "/p")
        [WithJsonBody sampleEnv ⟨0⟩, WithBody (some (.stream (str "plain")))]).trace =
      [.option 0, .option 1, .newRequest (str "POST") (str "/p") (some (.stream (str "plain"))),
        .send DefaultClient ⟨⟨1⟩, str "POST", ⟨[], [], str "/p", [], []⟩,
          some (StrMap.empty.put (str "Content-Type") [str "application/json"]),
          some (.stream (str "plain"))⟩] :=
  (C19_body_after_json_body sampleEnv (some ⟨1⟩) (str "POST") (str "/p") ⟨0⟩
    (str "\x7b\"k\":\"v\"\x7d\n") (some (.stream (str "plain")))
    ⟨⟨1⟩, str "POST", ⟨[], [], str "/p", [], []⟩, some StrMap.empty, some (.stream (str "plain"))⟩
    (by decide) (by decide)).2.1

/-- C20. When `params` is not empty, the raw query of the request handed to the client
lists its keys (read as `url.ParseQuery` reads them, unescaped) in ascending order,
whatever the target URL and the options were. So
two `WithParam` with distinct keys leave the same accumulator, and make `Do` behave
the same, in either order; and neither the loop over `params` in `do` nor
`Values.Encode` depends on the order in which the map is iterated. -/
theorem C20_query_keys_sorted (env : Env) (ctx : Option Context) (method url : GoString)
    (options : List OptionsFn) (c : RequestOpts) (req0 : Request) (cl : Client)
    (hok : (applyOptions options 0 (initialOpts method url)).1 = .completed c)
    (hcl : c.httpClient = some cl)
    (hreq : NewRequestWithContext env ctx c.method c.url c.body = .ok req0)
    (hp : GoMap.len c.params > 0) :
    (Do env ctx method url options).trace =
        (List.range options.length).map Event.option ++
          [.newRequest c.method c.url c.body, .send cl (prepare c req0)] ∧
      (queryKeys (prepare c req0).URL.RawQuery).Sorted (· ≤ ·) ∧
      (∀ k1 v1 k2 v2, k1 ≠ k2 →
        (∀ r, andThen (WithParam k1 v1) (WithParam k2 v2) r =
          andThen (WithParam k2 v2) (WithParam k1 v1) r) ∧
        Do env ctx method url [WithParam k1 v1, WithParam k2 v2] =
          Do env ctx method url [WithParam k2 v2, WithParam k1 v1]) ∧
      (∀ (q p : StrMap) (l : Entries), l.Perm p.entries →
        mergeEntries q l = mergeParams q (some p)) ∧
      (∀ (m : StrMap) (ks : List GoString), m.len ≠ 0 → ks.Perm m.entries.keys →
        encodeKeys m ks = Values.Encode (some m)) := by
  refine ⟨?_, ?_, ?_, ?_, ?_⟩
  · rw [Do_completed env ctx method url options c hok, do_send env ctx c req0 cl hreq hcl]
  · cases hpar : c.params with
    | none => rw [hpar] at hp; simp [GoMap.len] at hp
    | some p =>
      have hp' : 0 < GoMap.len (some p) := hpar ▸ hp
      by_cases hq : req0.URL.RawQuery = []
      · have : (prepare c req0).URL.RawQuery = Values.Encode (some p) := by
          simp [prepare, hpar, hp', hq]
        rw [this]
        exact queryKeys_Encode_sorted p
      · have : (prepare c req0).URL.RawQuery =
            Values.Encode (some (mergeParams req0.URL.Query (some p))) := by
          simp [prepare, hpar, hp', hq]
        rw [this]
        exact queryKeys_Encode_sorted _
  · intro k1 v1 k2 v2 hne
    exact ⟨WithParam_comm k1 v1 k2 v2 hne, Do_two_params_comm env ctx method url k1 v1 k2 v2 hne⟩
  · intro q p l hl
    exact mergeEntries_perm q l p.entries hl
      ((List.Perm.nodup_iff (hl.map Prod.fst)).2 p.keys_nodup)
  · intro m ks h0 hks
    unfold encodeKeys Values.Encode
    simp only [h0, if_false]
    rw [insertionSort_perm_eq ks m.entries.keys hks]

/-- A concrete instance of C20: `b` is set before `a` and the URL lists `z` first; the
query sent lists `a`, `b`, `z`. -/
theorem C20_query_keys_sorted_witness :
    (Do sampleEnv (some ⟨1⟩) (str "GET") (str "/p?z=9&b=0")
        [WithParam (str "b") (str "2"), WithParam (str "a") (str "1")]).trace =
      [.option 0, .option 1, .newRequest (str "GET") (str "/p?z=9&b=0") none,
        .send DefaultClient ⟨⟨1⟩, str "GET", ⟨[], [], str "/p", str "a=1&b=2&z=9", []⟩,
          some StrMap.empty, none⟩] ∧
      queryKeys (str "a=1&b=2&z=9") = [str "a", str "b", str "z"] :=
  have h := C20_query_keys_sorted sampleEnv (some ⟨1⟩) (str "GET") (str "/p?z=9&b=0")
    [WithParam (str "b") (str "2"), WithParam (str "a") (str "1")]
    { initialOpts (str "GET") (str "/p?z=9&b=0") with
      params := some ((StrMap.empty.put (str "b") [str "2"]).put (str "a") [str "1"]) }
    ⟨⟨1⟩, str "GET", ⟨[], [], str "/p", str "z=9&b=0", []⟩, some StrMap.empty, none⟩
    DefaultClient (by decide) rfl (by decide) (by decide)
  ⟨h.1.trans (by decide), by decide⟩

end Hw

